import Mathlib

/-!
# tooldock: registry and installation subsystem

A shallow embedding of `pkg/config/config.go`, `pkg/registry/registry.go`,
`pkg/executor/executor.go` and the `search` and `update` commands of
`cmd/plugin.go`, together with the properties of the specification that are
settled against it.

Stateful code is written in state-passing style over a `World`: the file
system, the clock, the network, the process environment and the standard
output.  Functions of the Go standard library that the program calls
(`os`, `path/filepath`, `net/http`, `time`, `fmt`, `strings`) are modelled by
their documented behaviour on a Unix host; `crypto/sha256`, `encoding/json`
and `unicode.ToLower` are taken as parameters (`Lib`), so every theorem holds
for whatever these functions compute.

Go strings are modelled as Lean strings (sequences of code points), as is
right for the valid UTF-8 that `encoding/json` produces: on such strings
equality, byte order and the substring relation agree with their byte-wise
Go counterparts.  File contents are byte lists.
-/

namespace Tooldock

/-! ## Data model (`registry.go`, lines 16-28) -/

/-- A byte sequence; each element stands for one byte. -/
abbrev Bytes := List Nat

/-- Go struct `Plugin`. -/
structure Plugin where
  Name : String
  Description : String
  Version : String
  URL : String
  /-- Go field `Type` ("script" or "binary"). -/
  Type_ : String
  Checksum : String
deriving DecidableEq

/-- Go struct `Registry`. -/
structure Registry where
  Version : String
  Plugins : List Plugin
deriving DecidableEq

/-! ## Library parameters -/

/-- The value of a `[32]byte` array, as returned by `sha256.Sum256`. -/
structure Digest where
  bytes : List Nat
  size_eq : bytes.length = 32
  byte_lt : ∀ b ∈ bytes, b < 256

/-- Library functions taken as parameters.
* `sum256` is `crypto/sha256.Sum256`;
* `jsonUnmarshal` is `json.Unmarshal(data, &registry)`, `none` when it fails;
* `jsonDecode` is `json.NewDecoder(body).Decode(&registry)` on a fully
  received body, `none` when it fails;
* `jsonMarshalIndent` is `json.MarshalIndent(registry, "", "  ")`, `none` when
  it fails;
* `unicodeToLower` is `unicode.ToLower` on one code point. -/
structure Lib where
  sum256 : Bytes → Digest
  jsonUnmarshal : Bytes → Option Registry
  jsonDecode : Bytes → Option Registry
  jsonMarshalIndent : Registry → Option Bytes
  unicodeToLower : Char → Char

/-! ## Operating-system model

The file system is a tree of directories and regular files addressed by
resolved paths.  Symbolic links and access rights are not modelled: a system
call fails only for a reason that the shape of the tree gives (`ENOENT`,
`ENOTDIR`, `EISDIR`, `ENOTEMPTY`, `EBUSY`) or that the path string gives
(`EINVAL` for a NUL byte, `ENOENT` for the empty string, `ENAMETOOLONG` for
a component over `NAME_MAX` bytes); the limit `PATH_MAX` on the length of a
whole path is not modelled.  Every path reaches a system call through
`filepath.Join`, hence cleaned, so that `.` and `..` can be followed
component by component without looking at the tree.  Modification times of
directories are stored but not maintained; no result of the program depends
on them. -/

/-- Error numbers that the modelled system calls can return. -/
inductive Errno where
  | ENOENT
  | ENOTDIR
  | EISDIR
  | ENOTEMPTY
  | EBUSY
  | EINVAL
  | ENAMETOOLONG
deriving DecidableEq

/-- A Go result pair `(value, err)`: a value or an error. -/
inductive Result (ε : Type) (α : Type) where
  | ok (v : α)
  | error (e : ε)
deriving DecidableEq

/-- Result of a system call: a value or an error number. -/
abbrev OSResult (α : Type) := Result Errno α

/-- A resolved absolute path: its components, innermost first (the root is
`[]`, and `/home/u/.tooldock` is `[".tooldock", "u", "home"]`). -/
abbrev Path := List String

/-- A file-system object.  A regular file has a content, permission bits and
a modification time (nanoseconds since the epoch); a directory has a
modification time. -/
inductive Node where
  | file (content : Bytes) (perm : Nat) (mtime : Int)
  | dir (mtime : Int)
deriving DecidableEq

/-- True for a directory. -/
def Node.isDir : Node → Bool
  | .file _ _ _ => false
  | .dir _ => true

/-- Modification time of an object (`FileInfo.ModTime`). -/
def Node.modTime : Node → Int
  | .file _ _ t => t
  | .dir t => t

/-- The file system: an association list from resolved paths to objects.  The
first binding of a path is the one in force; the root directory is implicit. -/
abbrev FS := List (Path × Node)

/-- The binding of a path, if any. -/
def FS.lookup : FS → Path → Option Node
  | [], _ => none
  | (q, n) :: rest, p => if q = p then some n else FS.lookup rest p

/-- Drop every binding of a path. -/
def FS.erase : FS → Path → FS
  | [], _ => []
  | (q, n) :: rest, p => if q = p then FS.erase rest p else (q, n) :: FS.erase rest p

/-- Bind a path to an object, replacing any earlier binding. -/
def FS.insert (fs : FS) (p : Path) (n : Node) : FS :=
  (p, n) :: FS.erase fs p

/-- Length of a string in bytes (UTF-8). -/
def byteLength (s : String) : Nat :=
  (s.data.map Char.utf8Size).sum

/-- Linux `NAME_MAX`: the longest file name, in bytes. -/
def nameMax : Nat := 255

/-- Walk from the root to a path: every ancestor has to be a directory
(`ENOTDIR` otherwise), and every component has to be a name the directory
can hold (`ENAMETOOLONG` otherwise) and has to exist (`ENOENT`). -/
def FS.nodeAt (fs : FS) : Path → OSResult Node
  | [] => .ok (.dir 0)
  | c :: parent =>
    match FS.nodeAt fs parent with
    | .error e => .error e
    | .ok (.file _ _ _) => .error .ENOTDIR
    | .ok (.dir _) =>
      if nameMax < byteLength c then .error .ENAMETOOLONG
      else
        match FS.lookup fs (c :: parent) with
        | none => .error .ENOENT
        | some n => .ok n

/-- A directory has a child when some binding lies directly below it. -/
def FS.hasChild (fs : FS) (p : Path) : Bool :=
  fs.any (fun e => match e.1 with
    | [] => false
    | _ :: parent => decide (parent = p))

/-- Split a character sequence at every `/`. -/
def splitSlash : List Char → List (List Char)
  | [] => [[]]
  | c :: cs =>
    if c = '/' then [] :: splitSlash cs
    else
      match splitSlash cs with
      | [] => [[c]]
      | first :: more => (c :: first) :: more

/-- The components of a path string, outermost first (empty components
included). -/
def components (p : String) : List String :=
  (splitSlash p.data).map String.mk

/-- A path string is rooted when it starts with `/`. -/
def isRooted (p : String) : Bool :=
  p.data.head? = some '/'

/-- Follow one component from a resolved directory: an empty component and
`.` stay, `..` goes to the parent (the root is its own parent). -/
def pathStep (at_ : Path) (c : String) : Path :=
  if c = "" ∨ c = "." then at_
  else if c = ".." then at_.tail
  else c :: at_

/-- The place a path string leads to from the working directory, component
by component. -/
def walkPath (cwd : Path) (p : String) : Path :=
  (components p).foldl pathStep (if isRooted p then [] else cwd)

/-- What is wrong with a path string before any look at the tree: Go refuses
a string with a NUL byte (`EINVAL`), and the empty string names nothing
(`ENOENT`). -/
def pathError (p : String) : Option Errno :=
  if p.data.contains (Char.ofNat 0) = true then some .EINVAL
  else if p = "" then some .ENOENT
  else none

/-- Path resolution of a path string against the working directory: the
place that an acceptable path string leads to. -/
def resolvePath (cwd : Path) (p : String) : Option Path :=
  match pathError p with
  | some _ => none
  | none => some (walkPath cwd p)

/-- The last component of a path string that is not empty (the empty string
for `/`). -/
def lastComponent (p : String) : String :=
  (((components p).filter (fun c => decide (c ≠ ""))).getLast?).getD ""

/-- One step of `filepath.Clean` over the components kept so far (innermost
first): it drops empty components and `.`, cancels an inner `..` against the
component before it, and drops a `..` that would climb above the root. -/
def cleanStep (rooted : Bool) (kept : List String) (c : String) : List String :=
  if c = "" ∨ c = "." then kept
  else if c = ".." then
    match kept with
    | [] => if rooted then [] else [".."]
    | top :: rest => if top = ".." then ".." :: top :: rest else rest
  else c :: kept

/-- Join strings with `/` between them. -/
def joinSlash : List String → String
  | [] => ""
  | [a] => a
  | a :: b :: rest => a ++ "/" ++ joinSlash (b :: rest)

/-- Go `filepath.Clean` (Unix): the shortest path name equivalent to `p` by
purely lexical processing; the empty string cleans to `.`. -/
def filepathClean (p : String) : String :=
  if p = "" then "."
  else
    let kept := ((components p).foldl (cleanStep (isRooted p)) []).reverse
    if isRooted p then "/" ++ joinSlash kept
    else if kept = [] then "."
    else joinSlash kept

/-- Go `filepath.Join` (Unix): the elements from the first non-empty one on,
separated by `/`, cleaned; the empty string when every element is empty. -/
def filepathJoin (elem : List String) : String :=
  match elem.dropWhile (fun e => decide (e = "")) with
  | [] => ""
  | rest => filepathClean (joinSlash rest)

/-- What `http.Get` yields for a URL: a transport error, or a response with a
status code and a body (`none` when reading the body fails). -/
inductive HttpResult where
  | netErr
  | response (status : Nat) (body : Option Bytes)
deriving DecidableEq

/-- The state the program runs in. -/
structure World where
  /-- The file system. -/
  fs : FS
  /-- The working directory of the process. -/
  cwd : Path
  /-- The file-mode creation mask of the process. -/
  umask : Nat
  /-- The result of `os.UserHomeDir()`, `none` when it fails. -/
  home : Option String
  /-- The value of the environment variable `TOOLDOCK_REGISTRY_URL`. -/
  registryURLEnv : String
  /-- Wall-clock time, nanoseconds since the epoch. -/
  now : Int
  /-- The network: what a GET of each URL yields. -/
  net : List (String × HttpResult)
  /-- The URLs requested so far, oldest first. -/
  requests : List String
  /-- Everything written to standard output, oldest first. -/
  stdout : List String
deriving DecidableEq

/-- The response of the network to a GET of `url`. -/
def netLookup : List (String × HttpResult) → String → HttpResult
  | [], _ => .netErr
  | (u, r) :: rest, url => if u = url then r else netLookup rest url

/-- Go `http.Get`: records the request and yields the response. -/
def httpGet (w : World) (url : String) : HttpResult × World :=
  (netLookup w.net url, { w with requests := w.requests ++ [url] })

/-- Go `os.Stat`: the object at a path. -/
def osStat (w : World) (p : String) : OSResult Node :=
  match pathError p with
  | some e => .error e
  | none => FS.nodeAt w.fs (walkPath w.cwd p)

/-- Go `os.ReadFile`: the content of the regular file at a path. -/
def osReadFile (w : World) (p : String) : OSResult Bytes :=
  match osStat w p with
  | .error e => .error e
  | .ok (.dir _) => .error .EISDIR
  | .ok (.file content _ _) => .ok content

/-- Go `os.WriteFile`: "If the file does not exist, WriteFile creates it with
permissions perm (before umask); otherwise WriteFile truncates it before
writing, without changing permissions."  The result is the new file system. -/
def osWriteFile (w : World) (p : String) (data : Bytes) (perm : Nat) : OSResult FS :=
  match pathError p with
  | some e => .error e
  | none =>
    match walkPath w.cwd p with
    | [] => .error .EISDIR
    | c :: parent =>
      match FS.nodeAt w.fs parent with
      | .error e => .error e
      | .ok (.file _ _ _) => .error .ENOTDIR
      | .ok (.dir _) =>
        if nameMax < byteLength c then .error .ENAMETOOLONG
        else
          match FS.lookup w.fs (c :: parent) with
          | some (.dir _) => .error .EISDIR
          | some (.file _ oldPerm _) =>
            .ok (FS.insert w.fs (c :: parent) (.file data oldPerm w.now))
          | none =>
            .ok (FS.insert w.fs (c :: parent)
              (.file data (perm - (perm &&& w.umask)) w.now))

/-- Go `os.Remove`: removes the named file or (empty) directory; it tries
`unlink` and then `rmdir` and, for a directory, returns the error of `rmdir`:
`EINVAL` for a path that ends in `.`, `ENOTEMPTY` for one that ends in `..`,
`EBUSY` for the root, `ENOTEMPTY` for a directory that holds something.  The
result is the new file system. -/
def osRemove (w : World) (p : String) : OSResult FS :=
  match pathError p with
  | some e => .error e
  | none =>
    match FS.nodeAt w.fs (walkPath w.cwd p) with
    | .error e => .error e
    | .ok (.file _ _ _) => .ok (FS.erase w.fs (walkPath w.cwd p))
    | .ok (.dir _) =>
      if lastComponent p = "." then .error .EINVAL
      else if lastComponent p = ".." then .error .ENOTEMPTY
      else if walkPath w.cwd p = [] then .error .EBUSY
      else if FS.hasChild w.fs (walkPath w.cwd p) then .error .ENOTEMPTY
      else .ok (FS.erase w.fs (walkPath w.cwd p))

/-- One entry of a directory listing (`os.DirEntry`). -/
structure DirEntry where
  Name : String
  IsDir : Bool
deriving DecidableEq

/-- A file name: not empty, not `.` or `..`, without `/` or NUL, and of at
most `NAME_MAX` bytes. -/
def validName (c : String) : Bool :=
  decide (c ≠ "") && decide (c ≠ ".") && decide (c ≠ "..") && !(c.data.contains '/') &&
    !(c.data.contains (Char.ofNat 0)) && decide (byteLength c ≤ nameMax)

/-- The names bound directly below a directory, in binding order. -/
def FS.childNames (fs : FS) (dir : Path) : List String :=
  fs.filterMap (fun e => match e.1 with
    | [] => none
    | c :: parent => if parent = dir ∧ validName c = true then some c else none)

/-- Lexicographic order on code-point sequences. -/
def lexLe : List Nat → List Nat → Bool
  | [], _ => true
  | _ :: _, [] => false
  | a :: as, b :: bs => a < b || (a == b && lexLe as bs)

/-- The order in which `os.ReadDir` lists file names. -/
def nameLe (a b : String) : Prop :=
  lexLe (a.data.map Char.toNat) (b.data.map Char.toNat) = true

instance : DecidableRel nameLe :=
  fun a b => inferInstanceAs (Decidable (lexLe (a.data.map Char.toNat) (b.data.map Char.toNat) = true))

/-- Go `os.ReadDir`: "reads the named directory, returning all its directory
entries sorted by filename." -/
def osReadDir (w : World) (p : String) : OSResult (List DirEntry) :=
  match pathError p with
  | some e => .error e
  | none =>
    match FS.nodeAt w.fs (walkPath w.cwd p) with
    | .error e => .error e
    | .ok (.file _ _ _) => .error .ENOTDIR
    | .ok (.dir _) =>
      .ok (((FS.childNames w.fs (walkPath w.cwd p)).dedup.insertionSort nameLe).map (fun c =>
        { Name := c
          IsDir := match FS.lookup w.fs (c :: walkPath w.cwd p) with
            | some n => n.isDir
            | none => false }))

/-- Go `fmt.Print*` to standard output. -/
def printOut (w : World) (text : String) : World :=
  { w with stdout := w.stdout ++ [text] }

/-- Largest `time.Duration` (an `int64` count of nanoseconds). -/
def maxDuration : Int := 2 ^ 63 - 1

/-- Smallest `time.Duration`. -/
def minDuration : Int := -(2 ^ 63)

/-- Go `time.Hour`, in nanoseconds. -/
def Hour : Int := 3600 * 1000000000

/-- Go `time.Since(t)`, that is `time.Now().Sub(t)`: "If the result exceeds
the maximum (or minimum) value that can be stored in a Duration, the maximum
(or minimum) duration will be returned." -/
def timeSince (w : World) (t : Int) : Int :=
  if w.now - t > maxDuration then maxDuration
  else if w.now - t < minDuration then minDuration
  else w.now - t

/-- One lower-case hexadecimal digit. -/
def hexDigit (n : Nat) : Char :=
  "0123456789abcdef".data.getD n '0'

/-- The two hexadecimal digits of a byte. -/
def hexByte (b : Nat) : List Char :=
  [hexDigit (b / 16), hexDigit (b % 16)]

/-- Go `fmt.Sprintf("sha256:%x", hash)` for a `[32]byte` value: the prefix and
two lower-case hexadecimal digits per byte. -/
def sprintfChecksum (hash : Digest) : String :=
  String.mk ("sha256:".data ++ hash.bytes.flatMap hexByte)

/-- Go `strings.HasPrefix` on character sequences. -/
def startsWithChars : List Char → List Char → Bool
  | _, [] => true
  | [], _ :: _ => false
  | a :: s, b :: sub => decide (a = b) && startsWithChars s sub

/-- Search for `sub` at every position of `s`. -/
def containsChars : List Char → List Char → Bool
  | [], sub => startsWithChars [] sub
  | a :: s, sub => startsWithChars (a :: s) sub || containsChars s sub

/-- Go `strings.Contains(s, substr)`. -/
def stringsContains (s substr : String) : Bool :=
  containsChars s.data substr.data

/-- Go `strings.ToLower`: "returns s with all Unicode letters mapped to their
lower case." -/
def stringsToLower (L : Lib) (s : String) : String :=
  String.mk (s.data.map L.unicodeToLower)

/-- Go `fmt` verb `%-15s`: the string padded with spaces on the right to a
width of 15 characters. -/
def padRight15 (s : String) : String :=
  String.mk (s.data ++ List.replicate (15 - s.data.length) ' ')

/-! ## `pkg/config/config.go` -/

/-- Go constant `defaultRegistryURL`. -/
def defaultRegistryURL : String :=
  "https://raw.githubusercontent.com/Saurav-Paul/tooldock-plugins/main/plugins.json"

/-- Go constant `AppName`. -/
def AppName : String := "tooldock"

/-- Go `GetRegistryURL`: the environment override when it is set, the default
otherwise. -/
def GetRegistryURL (w : World) : String :=
  if w.registryURLEnv ≠ "" then w.registryURLEnv else defaultRegistryURL

/-- Go `GetPluginDir`: `<home>/.tooldock/plugins`, or the empty string when
the home directory cannot be resolved. -/
def GetPluginDir (w : World) : String :=
  match w.home with
  | none => ""
  | some home => filepathJoin [home, "." ++ AppName, "plugins"]

/-- Go `GetCacheDir`: `<home>/.tooldock/cache`, or the empty string when the
home directory cannot be resolved. -/
def GetCacheDir (w : World) : String :=
  match w.home with
  | none => ""
  | some home => filepathJoin [home, "." ++ AppName, "cache"]

/-! ## Errors

Go builds its errors with `fmt.Errorf`; each format string of the program is
one constructor here, carrying the values that are formatted into it. -/

/-- The errors of `registry.go` and `cmd/plugin.go`. -/
inductive Error where
  /-- An error of the operating system, returned as it is. -/
  | os (e : Errno)
  /-- Failure of `json.MarshalIndent`, returned as it is. -/
  | marshal
  /-- "failed to fetch registry: %w" -/
  | fetchRegistry
  /-- "failed to fetch registry: status %d" -/
  | fetchRegistryStatus (status : Nat)
  /-- "failed to parse registry: %w" -/
  | parseRegistry
  /-- "failed to download plugin: %w" -/
  | downloadPlugin
  /-- "failed to download plugin: status %d" -/
  | downloadPluginStatus (status : Nat)
  /-- "failed to read plugin content: %w" -/
  | readPluginContent
  /-- "checksum mismatch: expected %s, got %s" -/
  | checksumMismatch (expected got : String)
  /-- "failed to write plugin: %w" -/
  | writePlugin (e : Errno)
  /-- "plugin %s is not installed" (`RemovePlugin`) -/
  | notInstalled (name : String)
  /-- "failed to remove plugin: %w" -/
  | removePlugin (e : Errno)
  /-- "failed to fetch plugin registry: %w" -/
  | cmdFetchRegistry (cause : Error)
  /-- "failed to get installed plugins: %w" -/
  | cmdGetInstalled (cause : Error)
  /-- "plugin '%s' is not installed" (the update command) -/
  | cmdNotInstalled (name : String)
  /-- "plugin '%s' not found in registry" -/
  | cmdNotFound (name : String)
  /-- "failed to remove old version: %w" -/
  | cmdRemoveOld (cause : Error)
  /-- "failed to update plugin: %w" -/
  | cmdUpdate (cause : Error)
deriving DecidableEq

/-! ## `pkg/registry/registry.go` -/

/-- Go `cacheRegistry`: saves the registry to `<cacheDir>/registry.json` with
mode 0644. -/
def cacheRegistry (L : Lib) (w : World) (registry : Registry) : Option Error × World :=
  let cachePath := filepathJoin [GetCacheDir w, "registry.json"]
  match L.jsonMarshalIndent registry with
  | none => (some .marshal, w)
  | some data =>
    match osWriteFile w cachePath data 0o644 with
    | .error e => (some (.os e), w)
    | .ok fs => (none, { w with fs := fs })

/-- Go `FetchRegistry`: downloads the plugin registry, decodes it and caches
it; the result of `cacheRegistry` is discarded. -/
def FetchRegistry (L : Lib) (w : World) : Result Error Registry × World :=
  match httpGet w (GetRegistryURL w) with
  | (.netErr, w1) => (.error .fetchRegistry, w1)
  | (.response status body, w1) =>
    if status ≠ 200 then (.error (.fetchRegistryStatus status), w1)
    else
      match body.bind L.jsonDecode with
      | none => (.error .parseRegistry, w1)
      | some registry => (.ok registry, (cacheRegistry L w1 registry).2)

/-- Go `GetCachedRegistry`: the cached registry if the cache file exists, is
less than 24 hours old, can be read and parses; a fresh fetch otherwise. -/
def GetCachedRegistry (L : Lib) (w : World) : Result Error Registry × World :=
  let cachePath := filepathJoin [GetCacheDir w, "registry.json"]
  match osStat w cachePath with
  | .ok info =>
    if timeSince w info.modTime < 24 * Hour then
      match osReadFile w cachePath with
      | .ok data =>
        match L.jsonUnmarshal data with
        | some registry => (.ok registry, w)
        | none => FetchRegistry L w
      | .error _ => FetchRegistry L w
    else FetchRegistry L w
  | .error _ => FetchRegistry L w

/-- The loop of Go `Registry.FindPlugin`. -/
def findIn (name : String) : List Plugin → Option Plugin
  | [] => none
  | p :: rest => if p.Name = name then some p else findIn name rest

/-- Go `Registry.FindPlugin`: the first plugin of that name, or nil. -/
def FindPlugin (r : Registry) (name : String) : Option Plugin :=
  findIn name r.Plugins

/-- The checksum block of Go `DownloadPlugin` (lines 111-118): when a checksum
is given, the digest of the content, formatted, has to equal it. -/
def verifyChecksum (L : Lib) (plugin : Plugin) (content : Bytes) : Option Error :=
  if plugin.Checksum ≠ "" then
    let checksum := sprintfChecksum (L.sum256 content)
    if checksum ≠ plugin.Checksum then
      some (.checksumMismatch plugin.Checksum checksum)
    else none
  else none

/-- Go `DownloadPlugin`: downloads the plugin, verifies its checksum if one is
given, and writes it to `<pluginDir>/<name>` with mode 0755. -/
def DownloadPlugin (L : Lib) (w : World) (plugin : Plugin) : Option Error × World :=
  match httpGet w plugin.URL with
  | (.netErr, w1) => (some .downloadPlugin, w1)
  | (.response status body, w1) =>
    if status ≠ 200 then (some (.downloadPluginStatus status), w1)
    else
      match body with
      | none => (some .readPluginContent, w1)
      | some content =>
        match verifyChecksum L plugin content with
        | some e => (some e, w1)
        | none =>
          let pluginPath := filepathJoin [GetPluginDir w1, plugin.Name]
          match osWriteFile w1 pluginPath content 0o755 with
          | .error e => (some (.writePlugin e), w1)
          | .ok fs => (none, { w1 with fs := fs })

/-- The test of the loop of Go `GetInstalledPlugins`:
`!entry.IsDir() && entry.Name()[0] != '.'`.  Indexing an empty name would
panic in Go; `os.ReadDir` yields no empty name (`osReadDir_names_valid`). -/
def listed (entry : DirEntry) : Bool :=
  !entry.IsDir && decide (entry.Name.data.head? ≠ some '.')

/-- Go `GetInstalledPlugins`: the names of the entries of the plugin
directory that pass the test, in listing order; the empty list when the
directory does not exist. -/
def GetInstalledPlugins (w : World) : Result Error (List String) :=
  match osReadDir w (GetPluginDir w) with
  | .error e => if e = .ENOENT then .ok [] else .error (.os e)
  | .ok entries => .ok ((entries.filter listed).map DirEntry.Name)

/-- Go `RemovePlugin`: removes `<pluginDir>/<name>`. -/
def RemovePlugin (w : World) (name : String) : Option Error × World :=
  let pluginPath := filepathJoin [GetPluginDir w, name]
  match osRemove w pluginPath with
  | .error e =>
    if e = .ENOENT then (some (.notInstalled name), w)
    else (some (.removePlugin e), w)
  | .ok fs => (none, { w with fs := fs })

/-! ## `pkg/executor/executor.go`

The file imports `pkg/config` under another module path than `registry.go`
does; both name the one `pkg/config` of the repository. -/

/-- Go `getPluginPath`. -/
def getPluginPath (w : World) (name : String) : String :=
  filepathJoin [GetPluginDir w, name]

/-- Go `IsPluginInstalled`: `os.Stat` of the plugin path succeeds. -/
def IsPluginInstalled (w : World) (name : String) : Bool :=
  match osStat w (getPluginPath w name) with
  | .ok _ => true
  | .error _ => false

/-! ## `cmd/plugin.go` -/

/-- The line printed for one plugin: `"%s%-15s %s (v%s)\n"`. -/
def pluginLine (status : String) (plugin : Plugin) : String :=
  status ++ padRight15 plugin.Name ++ " " ++ plugin.Description ++ " (v" ++ plugin.Version ++ ")\n"

/-- The status column: a check mark for an installed plugin. -/
def statusOf (installed : List String) (plugin : Plugin) : String :=
  if plugin.Name ∈ installed then "✓ " else "  "

/-- The test of the search loop. -/
def matchesQuery (L : Lib) (query : String) (plugin : Plugin) : Bool :=
  stringsContains (stringsToLower L plugin.Name) query ||
    stringsContains (stringsToLower L plugin.Description) query

/-- One iteration of the search loop over the flag `found` and the world. -/
def searchStep (L : Lib) (query : String) (installed : List String)
    (st : Bool × World) (plugin : Plugin) : Bool × World :=
  if matchesQuery L query plugin = true then
    (true, printOut st.2 (pluginLine (statusOf installed plugin) plugin))
  else st

/-- The body of `pluginSearchCmd` for its one argument. -/
def pluginSearch (L : Lib) (w : World) (arg : String) : Option Error × World :=
  let query := stringsToLower L arg
  match GetCachedRegistry L w with
  | (.error e, w1) => (some (.cmdFetchRegistry e), w1)
  | (.ok reg, w1) =>
    match GetInstalledPlugins w1 with
    | .error e => (some (.cmdGetInstalled e), w1)
    | .ok installed =>
      let w2 := printOut w1 ("Search results for \x27" ++ query ++ "\x27:\n\n")
      let st := reg.Plugins.foldl (searchStep L query installed) (false, w2)
      let w3 := if st.1 = false then printOut st.2 "No plugins found matching your query.\n" else st.2
      (none, printOut w3 "\n")

/-- The progress line of the update command: `"📦 Updating %s to v%s...\n"`. -/
def updatingLine (plugin : Plugin) : String :=
  "📦 Updating " ++ plugin.Name ++ " to v" ++ plugin.Version ++ "...\n"

/-- The body of `pluginUpdateCmd` for its one argument. -/
def pluginUpdate (L : Lib) (w : World) (pluginName : String) : Option Error × World :=
  match GetInstalledPlugins w with
  | .error e => (some e, w)
  | .ok installedPlugins =>
    if pluginName ∉ installedPlugins then (some (.cmdNotInstalled pluginName), w)
    else
      match FetchRegistry L w with
      | (.error e, w1) => (some (.cmdFetchRegistry e), w1)
      | (.ok reg, w1) =>
        match FindPlugin reg pluginName with
        | none => (some (.cmdNotFound pluginName), w1)
        | some plugin =>
          match RemovePlugin w1 pluginName with
          | (some e, w2) => (some (.cmdRemoveOld e), w2)
          | (none, w2) =>
            let w3 := printOut w2 (updatingLine plugin)
            match DownloadPlugin L w3 plugin with
            | (some e, w4) => (some (.cmdUpdate e), w4)
            | (none, w4) =>
              (none, printOut w4
                ("✅ Successfully updated " ++ plugin.Name ++ " to v" ++ plugin.Version ++ "\n"))

/-! ## Definitions that follow the specification -/

/-- Following the specification: `q` is a case-insensitive substring of `s`
when the lower-cased `q` occurs as a contiguous run inside the lower-cased
`s`. -/
def caseInsensitiveSubstring (L : Lib) (q s : String) : Prop :=
  (stringsToLower L q).data <:+: (stringsToLower L s).data

instance (L : Lib) (q s : String) : Decidable (caseInsensitiveSubstring L q s) :=
  inferInstanceAs (Decidable ((stringsToLower L q).data <:+: (stringsToLower L s).data))

/-- Following the specification: the entries of a catalog that a query
selects, in catalog order. -/
def searchHits (L : Lib) (q : String) (plugins : List Plugin) : List Plugin :=
  plugins.filter (fun p =>
    decide (caseInsensitiveSubstring L q p.Name ∨ caseInsensitiveSubstring L q p.Description))

/-! ## Concrete inputs

A library instance and worlds on which the model is evaluated.  The digest
and JSON functions here are stand-ins: the theorems hold for every `Lib`. -/

/-- A stand-in digest: 32 bytes that depend on the content. -/
def demoSum256 (content : Bytes) : Digest where
  bytes := List.replicate 32 (content.sum % 256)
  size_eq := List.length_replicate _ _
  byte_lt := fun b hb => by
    rw [List.eq_of_mem_replicate hb]
    exact Nat.mod_lt _ (by decide)

/-- A descriptor of `fmt` without checksum. -/
def demoFmtPlain : Plugin where
  Name := "fmt"
  Description := "Formats code"
  Version := "1.2.0"
  URL := "https://example.org/fmt"
  Type_ := "script"
  Checksum := ""

/-- The catalog of scenario D of the specification. -/
def demoCatalog : Registry where
  Version := "1"
  Plugins :=
    [ demoFmtPlain,
      { Name := "lint", Description := "runs fmt checks", Version := "0.3.1",
        URL := "https://example.org/lint", Type_ := "binary", Checksum := "" },
      { Name := "deploy", Description := "Ships builds", Version := "2.0.0",
        URL := "https://example.org/deploy", Type_ := "binary", Checksum := "" } ]

/-- A stand-in for the JSON functions: the byte string `[1]` is the encoding
of `demoCatalog`, nothing else parses. -/
def demoLib : Lib where
  sum256 := demoSum256
  jsonUnmarshal := fun data => if data = [1] then some demoCatalog else none
  jsonDecode := fun data => if data = [1] then some demoCatalog else none
  jsonMarshalIndent := fun r => if r = demoCatalog then some [1] else none
  unicodeToLower := Char.toLower

/-- The directories `/home/u/.tooldock/plugins` and `/home/u/.tooldock/cache`. -/
def demoDirs : FS :=
  [ (["home"], .dir 0),
    (["u", "home"], .dir 0),
    ([".tooldock", "u", "home"], .dir 0),
    (["plugins", ".tooldock", "u", "home"], .dir 0),
    (["cache", ".tooldock", "u", "home"], .dir 0) ]

/-- A world at hour 100 with an installed plugin `fmt`, a hidden file, a
sub-directory of the plugin directory, and a cache file written 23 hours
ago. -/
def demoWorld : World where
  fs := demoDirs ++
    [ (["fmt", "plugins", ".tooldock", "u", "home"], .file [7, 7] 0o755 (50 * Hour)),
      ([".hidden", "plugins", ".tooldock", "u", "home"], .file [] 0o644 (50 * Hour)),
      (["bundle", "plugins", ".tooldock", "u", "home"], .dir (50 * Hour)),
      (["registry.json", "cache", ".tooldock", "u", "home"], .file [1] 0o644 (77 * Hour)) ]
  cwd := ["u", "home"]
  umask := 0o022
  home := some "/home/u"
  registryURLEnv := ""
  now := 100 * Hour
  net := [ (defaultRegistryURL, .response 200 (some [1])),
           ("https://example.org/fmt", .response 200 (some [35, 33, 10])) ]
  requests := []
  stdout := []

/-- A lower-case hexadecimal digit. -/
def isLowerHex (c : Char) : Bool :=
  (decide (48 ≤ c.toNat) && decide (c.toNat ≤ 57)) || (decide (97 ≤ c.toNat) && decide (c.toNat ≤ 102))

/-- Following the specification: a checksum of the form `sha256:<hex>`, that
is the 71-character string made of `sha256:` and 64 lower-case hexadecimal
digits. -/
def wellFormedChecksum (s : String) : Prop :=
  s.data.length = 71 ∧ s.data.take 7 = "sha256:".data ∧ ∀ c ∈ s.data.drop 7, isLowerHex c = true

instance (s : String) : Decidable (wellFormedChecksum s) :=
  inferInstanceAs (Decidable (s.data.length = 71 ∧ s.data.take 7 = "sha256:".data ∧
    ∀ c ∈ s.data.drop 7, isLowerHex c = true))

/-- The world of `demoWorld` in which the file of plugin `fmt` has lost its
execute permission (mode 0644). -/
def demoWorldNoExec : World :=
  { demoWorld with
    fs := demoDirs ++
      [ (["fmt", "plugins", ".tooldock", "u", "home"], .file [7, 7] 0o644 (50 * Hour)) ] }

/-- The descriptor of `fmt` with the checksum that `demoSum256` gives to the
content that `demoWorld` serves for it. -/
def demoFmt : Plugin :=
  { demoFmtPlain with
    Checksum := "sha256:4e4e4e4e4e4e4e4e4e4e4e4e4e4e4e4e4e4e4e4e4e4e4e4e4e4e4e4e4e4e4e4e" }

/-- A world like `demoWorld` in which `fmt` is not installed. -/
def demoWorldFresh : World :=
  { demoWorld with fs := demoDirs }

/-- The world of `demoWorld` with a cache file written 25 hours ago. -/
def demoWorldStale : World :=
  { demoWorld with
    fs := demoDirs ++
      [ (["registry.json", "cache", ".tooldock", "u", "home"], .file [1] 0o644 (75 * Hour)) ] }

/-- Following the specification: a hidden name begins with `.`. -/
def beginsWithDot (name : String) : Prop :=
  ['.'] <+: name.data

instance (name : String) : Decidable (beginsWithDot name) :=
  inferInstanceAs (Decidable (['.'] <+: name.data))

/-- The world of `demoWorld` where the registry names a checksum for `fmt`
that the served content does not hash to. -/
def demoWorldBadSum : World :=
  { demoWorld with net :=
      [ (defaultRegistryURL, .response 200 (some [2])),
        ("https://example.org/fmt", .response 200 (some [35, 33, 10])) ] }

/-- The descriptor of `fmt` with a checksum of zeros. -/
def demoFmtZero : Plugin :=
  { demoFmt with
    Checksum := "sha256:0000000000000000000000000000000000000000000000000000000000000000" }

/-- A library like `demoLib` in which the byte string `[2]` decodes to a
catalog whose only entry is `demoFmtZero`. -/
def demoLibBadSum : Lib :=
  { demoLib with
    jsonDecode := fun data =>
      if data = [2] then some { Version := "2", Plugins := [demoFmtZero] } else none }

/-- A component that path resolution keeps: not empty, not `.`, not `..`. -/
def plainComponent (c : String) : Prop :=
  c ≠ "" ∧ c ≠ "." ∧ c ≠ ".."

/-- The relation between the components kept by `filepath.Clean` and the
directory reached by path resolution from `base` after the same components:
the kept components are plain ones `a` above `k` times `..`, and resolution
has reached `a` inside the `k`-th ancestor of `base`. -/
def cleanTracks (rooted : Bool) (base : Path) (kept : List String) (reached : Path) : Prop :=
  ∃ a k, kept = a ++ List.replicate k ".." ∧ (∀ x ∈ a, plainComponent x ∧ '/' ∉ x.data) ∧
    (rooted = true → k = 0) ∧ reached = a ++ base.drop k

theorem FS.lookup_erase_self (fs : FS) (p : Path) : FS.lookup (FS.erase fs p) p = none := by
  induction fs with
  | nil => rfl
  | cons e rest ih =>
    obtain ⟨q, n⟩ := e
    by_cases h : q = p
    · simp [FS.erase, h, ih]
    · simp [FS.erase, FS.lookup, h, ih]

theorem FS.lookup_erase_ne (fs : FS) (p q : Path) (h : q ≠ p) :
    FS.lookup (FS.erase fs p) q = FS.lookup fs q := by
  induction fs with
  | nil => rfl
  | cons e rest ih =>
    obtain ⟨r, n⟩ := e
    by_cases hr : r = p
    · simp [FS.erase, FS.lookup, hr, ih, Ne.symm h]
    · simp [FS.erase, FS.lookup, hr, ih]

theorem FS.lookup_insert_self (fs : FS) (p : Path) (n : Node) :
    FS.lookup (FS.insert fs p n) p = some n := by
  simp [FS.insert, FS.lookup]

theorem FS.lookup_insert_ne (fs : FS) (p q : Path) (n : Node) (h : q ≠ p) :
    FS.lookup (FS.insert fs p n) q = FS.lookup fs q := by
  simp [FS.insert, FS.lookup, Ne.symm h, FS.lookup_erase_ne fs p q h]

/-- The walk to a path only reads the bindings of the path and of its
ancestors. -/
theorem FS.nodeAt_congr (fs fs2 : FS) (p : Path)
    (h : ∀ q, q <:+ p → FS.lookup fs2 q = FS.lookup fs q) :
    FS.nodeAt fs2 p = FS.nodeAt fs p := by
  induction p with
  | nil => rfl
  | cons c parent ih =>
    have hpar : FS.nodeAt fs2 parent = FS.nodeAt fs parent :=
      ih (fun q hq => h q (hq.trans (List.suffix_cons c parent)))
    simp only [FS.nodeAt, hpar, h (c :: parent) (List.suffix_refl _)]

theorem suffix_ne_cons (c : String) (parent q : Path) (h : q <:+ parent) : q ≠ c :: parent := by
  intro hq
  have := h.length_le
  rw [hq] at this
  simp at this

/-- Ancestors are unaffected by a change of the binding of a path. -/
theorem FS.nodeAt_parent_of_eq_off (fs fs2 : FS) (c : String) (parent : Path)
    (h : ∀ q, q ≠ c :: parent → FS.lookup fs2 q = FS.lookup fs q) :
    FS.nodeAt fs2 parent = FS.nodeAt fs parent :=
  FS.nodeAt_congr fs fs2 parent (fun q hq => h q (suffix_ne_cons c parent q hq))

/-- The walk below a directory: the name is checked, then looked up. -/
theorem FS.nodeAt_cons_dir (fs : FS) (c : String) (parent : Path) (t : Int)
    (hpar : FS.nodeAt fs parent = .ok (.dir t)) :
    FS.nodeAt fs (c :: parent) =
      if nameMax < byteLength c then .error .ENAMETOOLONG
      else
        match FS.lookup fs (c :: parent) with
        | none => .error .ENOENT
        | some n => .ok n := by
  simp only [FS.nodeAt, hpar]

theorem FS.nodeAt_ok_parent (fs : FS) (c : String) (parent : Path) (node : Node)
    (h : FS.nodeAt fs (c :: parent) = .ok node) : ∃ t, FS.nodeAt fs parent = .ok (.dir t) := by
  unfold FS.nodeAt at h
  cases hpar : FS.nodeAt fs parent with
  | error e => simp [hpar] at h
  | ok pn =>
    cases pn with
    | file c1 m1 t1 => simp [hpar] at h
    | dir t1 => exact ⟨t1, rfl⟩

theorem FS.nodeAt_ok_lookup (fs : FS) (c : String) (parent : Path) (node : Node)
    (h : FS.nodeAt fs (c :: parent) = .ok node) :
    FS.lookup fs (c :: parent) = some node ∧ ¬ nameMax < byteLength c := by
  obtain ⟨t, hpar⟩ := FS.nodeAt_ok_parent fs c parent node h
  rw [FS.nodeAt_cons_dir fs c parent t hpar] at h
  split_ifs at h with hlong
  cases hl : FS.lookup fs (c :: parent) with
  | none => simp [hl] at h
  | some n =>
    simp only [hl, Result.ok.injEq] at h
    exact ⟨by rw [h], hlong⟩

/-- A path string resolves exactly when nothing is wrong with it, and then to
the place it leads to. -/
theorem resolvePath_eq_some (cwd : Path) (p : String) (path : Path) :
    resolvePath cwd p = some path ↔ pathError p = none ∧ walkPath cwd p = path := by
  unfold resolvePath
  cases pathError p with
  | none => simp
  | some e => simp

/-- `os.Stat` of a path that resolves is the walk to the place it names. -/
theorem osStat_of_resolve (w : World) (p : String) (path : Path)
    (hres : resolvePath w.cwd p = some path) : osStat w p = FS.nodeAt w.fs path := by
  obtain ⟨herr, hwalk⟩ := (resolvePath_eq_some w.cwd p path).1 hres
  simp only [osStat, herr, hwalk]

/-- Nothing is wrong with a path string that is not empty and has no NUL. -/
theorem pathError_eq_none (p : String) :
    pathError p = none ↔ Char.ofNat 0 ∉ p.data ∧ p ≠ "" := by
  unfold pathError
  by_cases h0 : Char.ofNat 0 ∈ p.data
  · simp [h0]
  · by_cases hp : p = ""
    · simp [h0, hp]
    · simp [h0, hp]

/-- Every path on the way to an existing object exists. -/
theorem FS.nodeAt_ok_suffix (fs : FS) (q : Path) (node : Node) (h : FS.nodeAt fs q = .ok node)
    (r : Path) (hr : r <:+ q) : ∃ n, FS.nodeAt fs r = .ok n := by
  induction q generalizing node with
  | nil =>
    rw [List.suffix_nil.1 hr]
    exact ⟨_, rfl⟩
  | cons c parent ih =>
    rcases List.suffix_cons_iff.1 hr with heq | hsuf
    · rw [heq]
      exact ⟨node, h⟩
    · obtain ⟨t, ht⟩ := FS.nodeAt_ok_parent fs c parent node h
      exact ih _ ht hsuf

theorem FS.hasChild_of_lookup (fs : FS) (c : String) (parent : Path) (node : Node)
    (h : FS.lookup fs (c :: parent) = some node) : FS.hasChild fs parent = true := by
  induction fs with
  | nil => simp [FS.lookup] at h
  | cons e rest ih =>
    obtain ⟨q, n⟩ := e
    by_cases hq : q = c :: parent
    · simp [FS.hasChild, hq]
    · simp only [FS.lookup, hq, if_false] at h
      have := ih h
      simp only [FS.hasChild, List.any_cons, Bool.or_eq_true] at this ⊢
      exact Or.inr this

theorem proper_suffix_cons (r q : Path) (hr : r <:+ q) (hne : r ≠ q) :
    ∃ c, (c :: r) <:+ q := by
  obtain ⟨t, ht⟩ := hr
  rcases List.eq_nil_or_concat t with hnil | ⟨t0, c, hc⟩
  · subst hnil
    exact absurd (by simpa using ht) hne
  · refine ⟨c, t0, ?_⟩
    rw [← ht, hc]
    simp

/-- A path below which an object exists is a directory with a child. -/
theorem FS.hasChild_of_descendant (fs : FS) (p q : Path) (node : Node)
    (h : FS.nodeAt fs q = .ok node) (hp : p <:+ q) (hne : p ≠ q) :
    FS.hasChild fs p = true := by
  obtain ⟨c, hc⟩ := proper_suffix_cons p q hp hne
  obtain ⟨n, hn⟩ := FS.nodeAt_ok_suffix fs q node h (c :: p) hc
  exact FS.hasChild_of_lookup fs c p n (FS.nodeAt_ok_lookup fs c p n hn).1

/-- After a successful `os.WriteFile` the path holds a regular file with the
written content, stamped with the current time; its permission bits are the
requested ones less the umask when the file is new, and the old ones when a
file was already there. -/
theorem osWriteFile_stat (w : World) (p : String) (data : Bytes) (perm : Nat) (fs2 : FS)
    (hw : osWriteFile w p data perm = .ok fs2) :
    ∃ m, osStat { w with fs := fs2 } p = .ok (.file data m w.now) ∧
      (osStat w p = .error .ENOENT → m = perm - (perm &&& w.umask)) ∧
      (∀ c0 m0 t0, osStat w p = .ok (.file c0 m0 t0) → m = m0) := by
  unfold osWriteFile at hw
  unfold osStat
  cases herr : pathError p with
  | some e => simp [herr] at hw
  | none =>
    simp only [herr] at hw ⊢
    cases hpath : walkPath w.cwd p with
    | nil => simp [hpath] at hw
    | cons c parent =>
      simp only [hpath] at hw ⊢
      cases hpar : FS.nodeAt w.fs parent with
      | error e => simp [hpar] at hw
      | ok node =>
        cases node with
        | file c1 m1 t1 => simp [hpar] at hw
        | dir t1 =>
          simp only [hpar] at hw
          by_cases hlong : nameMax < byteLength c
          · simp [hlong] at hw
          · simp only [hlong, if_false] at hw
            have key : ∀ n, fs2 = FS.insert w.fs (c :: parent) n →
                FS.nodeAt fs2 (c :: parent) = .ok n := by
              intro n hfs
              have hp2 : FS.nodeAt fs2 parent = .ok (.dir t1) := by
                rw [← hpar]
                apply FS.nodeAt_parent_of_eq_off w.fs fs2 c parent
                intro q hq
                rw [hfs, FS.lookup_insert_ne _ _ _ _ hq]
              subst hfs
              rw [FS.nodeAt_cons_dir _ c parent t1 hp2]
              simp only [hlong, if_false, FS.lookup_insert_self]
            have hbefore := FS.nodeAt_cons_dir w.fs c parent t1 hpar
            simp only [hlong, if_false] at hbefore
            cases hl : FS.lookup w.fs (c :: parent) with
            | none =>
              simp only [hl, Result.ok.injEq] at hw
              refine ⟨perm - (perm &&& w.umask), key _ hw.symm, fun _ => rfl, ?_⟩
              intro c0 m0 t0 h0
              rw [hbefore, hl] at h0
              cases h0
            | some old =>
              cases old with
              | dir t2 => simp [hl] at hw
              | file c2 m2 t2 =>
                simp only [hl, Result.ok.injEq] at hw
                refine ⟨m2, key _ hw.symm, ?_, ?_⟩
                · intro h0
                  rw [hbefore, hl] at h0
                  cases h0
                · intro c0 m0 t0 h0
                  rw [hbefore, hl] at h0
                  simp only [Result.ok.injEq, Node.file.injEq] at h0
                  exact h0.2.1

/-- What a successful `os.Remove` does: the path resolves to an existing
object, that object is gone afterwards, and every other path holds an object
afterwards exactly when it held that object before. -/
theorem osRemove_ok (w : World) (p : String) (fs2 : FS) (h : osRemove w p = .ok fs2) :
    ∃ path, resolvePath w.cwd p = some path ∧ fs2 = FS.erase w.fs path ∧
      (∃ node, FS.nodeAt w.fs path = .ok node) ∧
      FS.nodeAt fs2 path = .error .ENOENT ∧
      ∀ q, q ≠ path → ∀ node, FS.nodeAt fs2 q = .ok node ↔ FS.nodeAt w.fs q = .ok node := by
  unfold osRemove at h
  cases herr : pathError p with
  | some e => simp [herr] at h
  | none =>
    simp only [herr] at h
    have hres : resolvePath w.cwd p = some (walkPath w.cwd p) :=
      (resolvePath_eq_some w.cwd p _).2 ⟨herr, rfl⟩
    generalize walkPath w.cwd p = path at h hres
    cases hnode : FS.nodeAt w.fs path with
    | error e => simp [hnode] at h
    | ok node =>
      have hfs : fs2 = FS.erase w.fs path ∧ path ≠ [] ∧
          (node.isDir = true → FS.hasChild w.fs path = false) := by
        cases node with
        | file c1 m1 t1 =>
          simp only [hnode, Result.ok.injEq] at h
          refine ⟨h.symm, ?_, by simp [Node.isDir]⟩
          rintro rfl
          simp [FS.nodeAt] at hnode
        | dir t1 =>
          simp only [hnode] at h
          split_ifs at h with h1 h2 h3 h4
          simp only [Result.ok.injEq] at h
          exact ⟨h.symm, h3, fun _ => by simpa using h4⟩
      obtain ⟨hfs2, hne, hchild⟩ := hfs
      subst hfs2
      have hgone : FS.nodeAt (FS.erase w.fs path) path = .error .ENOENT := by
        cases path with
        | nil => exact absurd rfl hne
        | cons c parent =>
          obtain ⟨t, ht⟩ := FS.nodeAt_ok_parent w.fs c parent node hnode
          have hlong := (FS.nodeAt_ok_lookup w.fs c parent node hnode).2
          have hp2 : FS.nodeAt (FS.erase w.fs (c :: parent)) parent = .ok (.dir t) := by
            rw [← ht]
            exact FS.nodeAt_parent_of_eq_off w.fs _ c parent
              (fun q hq => FS.lookup_erase_ne w.fs _ q hq)
          rw [FS.nodeAt_cons_dir _ c parent t hp2]
          simp only [hlong, if_false, FS.lookup_erase_self]
      refine ⟨path, hres, rfl, ⟨node, hnode⟩, hgone, ?_⟩
      intro q hq qnode
      by_cases hsuf : path <:+ q
      · constructor
        · intro h2
          obtain ⟨n, hn⟩ := FS.nodeAt_ok_suffix _ q qnode h2 path hsuf
          rw [hgone] at hn
          cases hn
        · intro h1
          have hc := FS.hasChild_of_descendant w.fs path q qnode h1 hsuf (Ne.symm hq)
          have hdir : node.isDir = true := by
            obtain ⟨c, hcs⟩ := proper_suffix_cons path q hsuf (Ne.symm hq)
            obtain ⟨n, hn⟩ := FS.nodeAt_ok_suffix w.fs q qnode h1 (c :: path) hcs
            obtain ⟨t, ht⟩ := FS.nodeAt_ok_parent w.fs c path n hn
            rw [hnode] at ht
            cases ht
            rfl
          rw [hchild hdir] at hc
          cases hc
      · have hsame : FS.nodeAt (FS.erase w.fs path) q = FS.nodeAt w.fs q :=
          FS.nodeAt_congr w.fs _ q (fun r hr =>
            FS.lookup_erase_ne w.fs path r (fun hrp => hsuf (hrp ▸ hr)))
        rw [hsame]

theorem splitSlash_ne_nil (cs : List Char) : splitSlash cs ≠ [] := by
  cases cs with
  | nil => simp [splitSlash]
  | cons c rest =>
    unfold splitSlash
    split_ifs
    · simp
    · cases splitSlash rest <;> simp

theorem splitSlash_noSlash (cs : List Char) : ∀ piece ∈ splitSlash cs, '/' ∉ piece := by
  induction cs with
  | nil => simp [splitSlash]
  | cons c rest ih =>
    unfold splitSlash
    split_ifs with hc
    · intro piece hp
      rcases List.mem_cons.1 hp with rfl | hp
      · simp
      · exact ih piece hp
    · cases hs : splitSlash rest with
      | nil => exact absurd hs (splitSlash_ne_nil rest)
      | cons first more =>
        rw [hs] at ih
        intro piece hp
        rcases List.mem_cons.1 hp with rfl | hp
        · intro hmem
          rcases List.mem_cons.1 hmem with h | h
          · exact hc h.symm
          · exact ih first (List.mem_cons_self _ _) h
        · exact ih piece (List.mem_cons_of_mem _ hp)

theorem splitSlash_of_noSlash (cs : List Char) (h : '/' ∉ cs) : splitSlash cs = [cs] := by
  induction cs with
  | nil => rfl
  | cons c rest ih =>
    have hc : c ≠ '/' := fun hc => h (hc ▸ List.mem_cons_self _ _)
    have hr : '/' ∉ rest := fun hr => h (List.mem_cons_of_mem _ hr)
    simp [splitSlash, hc, ih hr]

theorem splitSlash_append_slash (a b : List Char) (ha : '/' ∉ a) :
    splitSlash (a ++ '/' :: b) = a :: splitSlash b := by
  induction a with
  | nil => simp [splitSlash]
  | cons c rest ih =>
    have hc : c ≠ '/' := fun hc => ha (hc ▸ List.mem_cons_self _ _)
    have hr : '/' ∉ rest := fun hr => ha (List.mem_cons_of_mem _ hr)
    simp [splitSlash, hc, ih hr]

theorem splitSlash_append (a b : List Char) :
    splitSlash (a ++ '/' :: b) = splitSlash a ++ splitSlash b := by
  induction a with
  | nil => simp [splitSlash]
  | cons c rest ih =>
    by_cases hc : c = '/'
    · simp [splitSlash, hc, ih]
    · cases hs : splitSlash rest with
      | nil => exact absurd hs (splitSlash_ne_nil rest)
      | cons first more =>
        rw [hs] at ih
        simp [splitSlash, hc, ih, hs]

theorem components_append_slash (d n : String) :
    components (d ++ "/" ++ n) = components d ++ components n := by
  unfold components
  rw [String.data_append, String.data_append]
  show (splitSlash (d.data ++ ['/'] ++ n.data)).map String.mk = _
  rw [List.append_assoc, List.singleton_append, splitSlash_append, List.map_append]

theorem components_of_noSlash (n : String) (h : '/' ∉ n.data) : components n = [n] := by
  unfold components
  rw [splitSlash_of_noSlash _ h]
  rfl

theorem components_noSlash (p : String) : ∀ c ∈ components p, '/' ∉ c.data := by
  intro c hc
  unfold components at hc
  rcases List.mem_map.1 hc with ⟨piece, hp, rfl⟩
  exact splitSlash_noSlash p.data piece hp

theorem components_joinSlash (l : List String) (hne : l ≠ [])
    (h : ∀ x ∈ l, '/' ∉ x.data) : components (joinSlash l) = l := by
  induction l with
  | nil => exact absurd rfl hne
  | cons a rest ih =>
    cases rest with
    | nil =>
      simp only [joinSlash]
      exact components_of_noSlash a (h a (List.mem_cons_self _ _))
    | cons b more =>
      simp only [joinSlash]
      rw [components_append_slash, components_of_noSlash a (h a (List.mem_cons_self _ _)),
        ih (by simp) (fun x hx => h x (List.mem_cons_of_mem _ hx))]
      rfl

theorem pathStep_plain (r : Path) (c : String) (h : plainComponent c) : pathStep r c = c :: r := by
  simp [pathStep, h.1, h.2.1, h.2.2]

theorem foldl_pathStep_plain (l : List String) (r : Path) (h : ∀ x ∈ l, plainComponent x) :
    l.foldl pathStep r = l.reverse ++ r := by
  induction l generalizing r with
  | nil => rfl
  | cons c rest ih =>
    rw [List.foldl_cons, pathStep_plain r c (h c (List.mem_cons_self _ _)),
      ih _ (fun x hx => h x (List.mem_cons_of_mem _ hx))]
    simp

theorem foldl_pathStep_dotdot (k : Nat) (r : Path) :
    (List.replicate k "..").foldl pathStep r = r.drop k := by
  induction k generalizing r with
  | zero => rfl
  | succ k ih =>
    rw [List.replicate_succ, List.foldl_cons, ih]
    have : pathStep r ".." = r.tail := by
      simp [pathStep]
    rw [this, List.drop_tail]

theorem cleanTracks_step (rooted : Bool) (base : Path) (hbase : rooted = true → base = [])
    (kept : List String) (reached : Path) (c : String) (hc : '/' ∉ c.data)
    (h : cleanTracks rooted base kept reached) :
    cleanTracks rooted base (cleanStep rooted kept c) (pathStep reached c) := by
  obtain ⟨a, k, hk, hplain, hroot, hr⟩ := h
  by_cases h1 : c = "" ∨ c = "."
  · simp only [cleanStep, pathStep, h1, if_true]
    exact ⟨a, k, hk, hplain, hroot, hr⟩
  · by_cases h2 : c = ".."
    · simp only [cleanStep, pathStep, h1, h2, if_true, if_false]
      cases a with
      | nil =>
        cases k with
        | zero =>
          simp only [List.nil_append, List.replicate_zero] at hk
          subst hk
          simp only [List.nil_append, List.drop_zero] at hr
          subst hr
          cases hrt : rooted with
          | true =>
            have hb := hbase hrt
            subst hb
            exact ⟨[], 0, by simp, by simp, fun _ => rfl, by simp⟩
          | false =>
            refine ⟨[], 1, by simp, by simp, by simp, ?_⟩
            simp
        | succ k =>
          have hrt : rooted = false := by
            cases hrt : rooted with
            | true => exact absurd (hroot hrt) (by simp)
            | false => rfl
          simp only [List.nil_append] at hk hr
          subst hk hr
          simp only [List.replicate_succ, if_true]
          refine ⟨[], k + 2, by simp [List.replicate_succ], by simp, by simp [hrt], ?_⟩
          simp [List.drop_tail]
      | cons top rest =>
        simp only [List.cons_append] at hk hr
        subst hk hr
        have htop := (hplain top (List.mem_cons_self _ _)).1.2.2
        simp only [htop, if_false, List.tail_cons]
        exact ⟨rest, k, rfl, fun x hx => hplain x (List.mem_cons_of_mem _ hx), hroot, rfl⟩
    · have hp : plainComponent c := ⟨fun h => h1 (Or.inl h), fun h => h1 (Or.inr h), h2⟩
      simp only [cleanStep, h1, h2, if_false, pathStep_plain reached c hp]
      refine ⟨c :: a, k, by simp [hk], ?_, hroot, by simp [hr]⟩
      intro x hx
      rcases List.mem_cons.1 hx with rfl | hx
      · exact ⟨hp, hc⟩
      · exact hplain x hx

theorem cleanTracks_foldl (rooted : Bool) (base : Path) (hbase : rooted = true → base = [])
    (comps : List String) (hc : ∀ c ∈ comps, '/' ∉ c.data) (kept : List String) (reached : Path)
    (h : cleanTracks rooted base kept reached) :
    cleanTracks rooted base (comps.foldl (cleanStep rooted) kept) (comps.foldl pathStep reached) := by
  induction comps generalizing kept reached with
  | nil => exact h
  | cons c rest ih =>
    exact ih (fun x hx => hc x (List.mem_cons_of_mem _ hx)) _ _
      (cleanTracks_step rooted base hbase kept reached c (hc c (List.mem_cons_self _ _)) h)

theorem joinSlash_data_cons (x : String) (rest : List String) :
    ∃ more, (joinSlash (x :: rest)).data = x.data ++ more := by
  cases rest with
  | nil => exact ⟨[], by simp [joinSlash]⟩
  | cons b more =>
    refine ⟨'/' :: (joinSlash (b :: more)).data, ?_⟩
    simp only [joinSlash, String.data_append]
    rw [List.append_assoc]
    rfl

/-- A path made of components without `/`, the first one not empty, is not
empty and not rooted. -/
theorem joinSlash_relative (x : String) (rest : List String) (hx : x ≠ "") (hs : '/' ∉ x.data) :
    joinSlash (x :: rest) ≠ "" ∧ isRooted (joinSlash (x :: rest)) = false := by
  obtain ⟨more, hm⟩ := joinSlash_data_cons x rest
  cases hd : x.data with
  | nil =>
    exact absurd (String.ext hd : x = "") hx
  | cons c cs =>
    rw [hd] at hm hs
    constructor
    · intro h
      rw [h] at hm
      cases hm
    · unfold isRooted
      rw [hm]
      have hc : c ≠ '/' := fun hc => hs (hc ▸ List.mem_cons_self _ _)
      simp [hc]

/-- `filepath.Clean` keeps the meaning of a path: the cleaned path is not
empty and resolves to the same place. -/
theorem walkPath_clean (cwd : Path) (s : String) (hs : s ≠ "") :
    filepathClean s ≠ "" ∧ walkPath cwd (filepathClean s) = walkPath cwd s := by
  have htrack := cleanTracks_foldl (isRooted s) (if isRooted s = true then [] else cwd)
    (by intro h; simp [h]) (components s) (components_noSlash s) []
    (if isRooted s = true then [] else cwd) ⟨[], 0, by simp, by simp, fun _ => rfl, by simp⟩
  obtain ⟨a, k, hk, hplain, hroot, hreach⟩ := htrack
  have hres : walkPath cwd s = a ++ (if isRooted s = true then [] else cwd).drop k := by
    simp only [walkPath, hreach]
  have hrev : ((components s).foldl (cleanStep (isRooted s)) []).reverse =
      List.replicate k ".." ++ a.reverse := by
    rw [hk, List.reverse_append, List.reverse_replicate]
  have hnoslash : ∀ x ∈ List.replicate k ".." ++ a.reverse, '/' ∉ x.data := by
    intro x hx
    rcases List.mem_append.1 hx with h | h
    · rw [List.eq_of_mem_replicate h]
      decide
    · exact (hplain x (List.mem_reverse.1 h)).2
  rw [hres]
  unfold filepathClean
  simp only [hs, if_false, hrev]
  cases hrt : isRooted s with
  | true =>
    have hk0 := hroot hrt
    subst hk0
    simp only [if_true, List.replicate_zero, List.nil_append, List.drop_zero, List.append_nil]
    have hne : "/" ++ joinSlash a.reverse ≠ "" := by
      intro h
      have := congrArg String.data h
      rw [String.data_append] at this
      cases this
    have hroot2 : isRooted ("/" ++ joinSlash a.reverse) = true := by
      unfold isRooted
      rw [String.data_append]
      rfl
    have hcomp : components ("/" ++ joinSlash a.reverse) =
        "" :: components (joinSlash a.reverse) := by
      have := components_append_slash "" (joinSlash a.reverse)
      rw [show ("" : String) ++ "/" = "/" from rfl] at this
      rw [this]
      rfl
    refine ⟨hne, ?_⟩
    simp only [walkPath, hroot2, if_true, hcomp, List.foldl_cons]
    have h0 : pathStep [] "" = [] := by simp [pathStep]
    rw [h0]
    cases ha : a with
    | nil => rfl
    | cons top rest =>
      rw [← ha, components_joinSlash a.reverse (by simp [ha])
        (fun x hx => (hplain x (List.mem_reverse.1 hx)).2),
        foldl_pathStep_plain _ _ (fun x hx => (hplain x (List.mem_reverse.1 hx)).1)]
      simp
  | false =>
    simp only [Bool.false_eq_true, if_false]
    by_cases hnil : List.replicate k ".." ++ a.reverse = []
    · simp only [hnil, if_true]
      have hk0 : k = 0 := by
        cases k with
        | zero => rfl
        | succ k => simp [List.replicate_succ] at hnil
      have ha : a = [] := by
        subst hk0
        simpa using hnil
      subst hk0 ha
      exact ⟨by decide, by simp [walkPath, isRooted, components, splitSlash, pathStep]⟩
    · simp only [hnil, if_false]
      have hcomp := components_joinSlash _ hnil hnoslash
      have hrel : joinSlash (List.replicate k ".." ++ a.reverse) ≠ "" ∧
          isRooted (joinSlash (List.replicate k ".." ++ a.reverse)) = false := by
        cases hl : List.replicate k ".." ++ a.reverse with
        | nil => exact absurd hl hnil
        | cons x rest =>
          have hx : x ∈ List.replicate k ".." ++ a.reverse := by rw [hl]; exact List.mem_cons_self _ _
          have hxne : x ≠ "" := by
            rcases List.mem_append.1 hx with h | h
            · rw [List.eq_of_mem_replicate h]
              decide
            · exact (hplain x (List.mem_reverse.1 h)).1.1
          exact joinSlash_relative x rest hxne (hnoslash x hx)
      refine ⟨hrel.1, ?_⟩
      simp only [walkPath, hrel.2, Bool.false_eq_true, if_false, hcomp,
        List.foldl_append, foldl_pathStep_dotdot,
        foldl_pathStep_plain _ _ (fun x hx => (hplain x (List.mem_reverse.1 hx)).1),
        List.reverse_reverse]

theorem splitSlash_chars (cs : List Char) :
    ∀ piece ∈ splitSlash cs, ∀ ch ∈ piece, ch ∈ cs := by
  induction cs with
  | nil => simp [splitSlash]
  | cons c rest ih =>
    unfold splitSlash
    split_ifs with hc
    · intro piece hp ch hch
      rcases List.mem_cons.1 hp with rfl | hp
      · cases hch
      · exact List.mem_cons_of_mem _ (ih piece hp ch hch)
    · cases hs : splitSlash rest with
      | nil => exact absurd hs (splitSlash_ne_nil rest)
      | cons first more =>
        rw [hs] at ih
        intro piece hp ch hch
        rcases List.mem_cons.1 hp with rfl | hp
        · rcases List.mem_cons.1 hch with rfl | hch
          · exact List.mem_cons_self _ _
          · exact List.mem_cons_of_mem _ (ih first (List.mem_cons_self _ _) ch hch)
        · exact List.mem_cons_of_mem _ (ih piece (List.mem_cons_of_mem _ hp) ch hch)

theorem components_chars (p : String) : ∀ c ∈ components p, ∀ ch ∈ c.data, ch ∈ p.data := by
  intro c hc ch hch
  unfold components at hc
  rcases List.mem_map.1 hc with ⟨piece, hp, rfl⟩
  exact splitSlash_chars p.data piece hp ch hch

theorem cleanStep_mem (rooted : Bool) (kept : List String) (c x : String)
    (h : x ∈ cleanStep rooted kept c) : x ∈ kept ∨ x = c ∨ x = ".." := by
  by_cases h1 : c = "" ∨ c = "."
  · simp only [cleanStep, h1, if_true] at h
    exact Or.inl h
  · by_cases h2 : c = ".."
    · subst h2
      cases kept with
      | nil =>
        cases rooted with
        | true => simp [cleanStep] at h
        | false =>
          have h' : x ∈ [".."] := by simpa [cleanStep] using h
          exact Or.inr (Or.inr (List.mem_singleton.1 h'))
      | cons top rest =>
        by_cases h3 : top = ".."
        · have h' : x ∈ ".." :: top :: rest := by simpa [cleanStep, h3] using h
          rcases List.mem_cons.1 h' with h' | h'
          · exact Or.inr (Or.inr h')
          · exact Or.inl h'
        · have h' : x ∈ rest := by simpa [cleanStep, h3] using h
          exact Or.inl (List.mem_cons_of_mem _ h')
    · simp only [cleanStep, h1, h2, if_false] at h
      rcases List.mem_cons.1 h with h | h
      · exact Or.inr (Or.inl h)
      · exact Or.inl h

theorem foldl_cleanStep_mem (rooted : Bool) (comps kept : List String) (x : String)
    (h : x ∈ comps.foldl (cleanStep rooted) kept) : x ∈ kept ∨ x ∈ comps ∨ x = ".." := by
  induction comps generalizing kept with
  | nil => exact Or.inl h
  | cons c rest ih =>
    rcases ih _ h with h | h | h
    · rcases cleanStep_mem rooted kept c x h with h | h | h
      · exact Or.inl h
      · exact Or.inr (Or.inl (h ▸ List.mem_cons_self _ _))
      · exact Or.inr (Or.inr h)
    · exact Or.inr (Or.inl (List.mem_cons_of_mem _ h))
    · exact Or.inr (Or.inr h)

theorem joinSlash_chars (l : List String) (ch : Char) (h : ch ∈ (joinSlash l).data) :
    ch = '/' ∨ ∃ x ∈ l, ch ∈ x.data := by
  induction l with
  | nil => simp [joinSlash] at h
  | cons a rest ih =>
    cases rest with
    | nil =>
      simp only [joinSlash] at h
      exact Or.inr ⟨a, List.mem_cons_self _ _, h⟩
    | cons b more =>
      simp only [joinSlash, String.data_append, List.mem_append] at h
      rcases h with (h | h) | h
      · exact Or.inr ⟨a, List.mem_cons_self _ _, h⟩
      · left
        simpa using h
      · rcases ih h with h | ⟨x, hx, hch⟩
        · exact Or.inl h
        · exact Or.inr ⟨x, List.mem_cons_of_mem _ hx, hch⟩

/-- `filepath.Clean` writes no character that is not in its argument, but for
`/` and `.`. -/
theorem filepathClean_chars (s : String) (ch : Char) (h : ch ∈ (filepathClean s).data) :
    ch ∈ s.data ∨ ch = '/' ∨ ch = '.' := by
  have hkept : ∀ x ∈ ((components s).foldl (cleanStep (isRooted s)) []).reverse,
      ∀ c ∈ x.data, c ∈ s.data ∨ c = '.' := by
    intro x hx c hc
    rcases foldl_cleanStep_mem _ _ _ x (List.mem_reverse.1 hx) with h | h | h
    · cases h
    · exact Or.inl (components_chars s x h c hc)
    · subst h
      right
      simpa using hc
  have hjoin : ch ∈ (joinSlash ((components s).foldl (cleanStep (isRooted s)) []).reverse).data →
      ch ∈ s.data ∨ ch = '/' ∨ ch = '.' := by
    intro hj
    rcases joinSlash_chars _ ch hj with h | ⟨x, hx, hc⟩
    · exact Or.inr (Or.inl h)
    · rcases hkept x hx ch hc with h | h
      · exact Or.inl h
      · exact Or.inr (Or.inr h)
  by_cases h1 : s = ""
  · have hc : filepathClean s = "." := by simp [filepathClean, h1]
    rw [hc] at h
    right; right
    simpa using h
  · by_cases h2 : isRooted s = true
    · have hc : filepathClean s =
          "/" ++ joinSlash ((components s).foldl (cleanStep (isRooted s)) []).reverse := by
        simp [filepathClean, h1, h2]
      rw [hc, String.data_append, List.mem_append] at h
      rcases h with h | h
      · right; left
        simpa using h
      · exact hjoin h
    · have h2f : isRooted s = false := by simpa using h2
      rw [h2f] at hjoin
      by_cases h3 : ((components s).foldl (cleanStep false) []).reverse = []
      · have hc : filepathClean s = "." := by
          simp only [filepathClean, h1, h2f, h3, if_true, if_false, Bool.false_eq_true]
        rw [hc] at h
        right; right
        simpa using h
      · have hc : filepathClean s =
            joinSlash ((components s).foldl (cleanStep false) []).reverse := by
          simp only [filepathClean, h1, h2f, h3, if_false, Bool.false_eq_true]
        rw [hc] at h
        exact hjoin h

theorem validName_iff (n : String) :
    validName n = true ↔
      plainComponent n ∧ '/' ∉ n.data ∧ Char.ofNat 0 ∉ n.data ∧ byteLength n ≤ nameMax := by
  simp [validName, plainComponent, and_assoc]

/-- The path that `filepath.Join` builds from a directory and a file name
leads to that name inside the directory, and has no character that is not in
the directory, in the name, `/` or `.`. -/
theorem walkPath_join_name (cwd : Path) (dir n : String) (hdir : dir ≠ "")
    (hplain : plainComponent n) (hslash : '/' ∉ n.data) :
    filepathJoin [dir, n] ≠ "" ∧
    walkPath cwd (filepathJoin [dir, n]) = n :: walkPath cwd dir ∧
    ∀ ch ∈ (filepathJoin [dir, n]).data, ch ∈ dir.data ∨ ch ∈ n.data ∨ ch = '/' ∨ ch = '.' := by
  have hjoin : filepathJoin [dir, n] = filepathClean (dir ++ "/" ++ n) := by
    simp [filepathJoin, List.dropWhile, hdir, joinSlash]
  have hdata : dir.data ≠ [] := fun h => hdir (String.ext h)
  have hne : dir ++ "/" ++ n ≠ "" := by
    intro h
    have := congrArg String.data h
    rw [String.data_append, String.data_append] at this
    simp at this
  have hroot : isRooted (dir ++ "/" ++ n) = isRooted dir := by
    unfold isRooted
    rw [String.data_append, String.data_append]
    cases hd : dir.data with
    | nil => exact absurd hd hdata
    | cons c cs => rfl
  obtain ⟨hclean, hres⟩ := walkPath_clean cwd (dir ++ "/" ++ n) hne
  rw [hjoin]
  refine ⟨hclean, ?_, ?_⟩
  · rw [hres]
    simp only [walkPath, hroot, components_append_slash,
      components_of_noSlash n hslash, List.foldl_append, List.foldl_cons, List.foldl_nil,
      pathStep_plain _ n hplain]
  · intro ch hch
    rcases filepathClean_chars _ ch hch with h | h | h
    · simp only [String.data_append, List.mem_append] at h
      rcases h with (h | h) | h
      · exact Or.inl h
      · right; right; left
        simpa using h
      · exact Or.inr (Or.inl h)
    · exact Or.inr (Or.inr (Or.inl h))
    · exact Or.inr (Or.inr (Or.inr h))

/-- The path that `filepath.Join` builds from a directory and a file name
resolves to that name inside the directory. -/
theorem resolvePath_join_name (cwd : Path) (dir n : String) (path : Path)
    (hres : resolvePath cwd dir = some path) (hn : validName n = true) :
    pathError (filepathJoin [dir, n]) = none ∧
    walkPath cwd (filepathJoin [dir, n]) = n :: path ∧
    resolvePath cwd (filepathJoin [dir, n]) = some (n :: path) := by
  obtain ⟨hplain, hslash, hnul, -⟩ := (validName_iff n).1 hn
  obtain ⟨herr, hwalk⟩ := (resolvePath_eq_some cwd dir path).1 hres
  obtain ⟨hdnul, hdne⟩ := (pathError_eq_none dir).1 herr
  obtain ⟨hne, hw, hchars⟩ := walkPath_join_name cwd dir n hdne hplain hslash
  have herr2 : pathError (filepathJoin [dir, n]) = none := by
    rw [pathError_eq_none]
    refine ⟨?_, hne⟩
    intro h0
    rcases hchars _ h0 with h | h | h | h
    · exact hdnul h
    · exact hnul h
    · exact absurd h (by decide)
    · exact absurd h (by decide)
  rw [hwalk] at hw
  exact ⟨herr2, hw, (resolvePath_eq_some cwd _ _).2 ⟨herr2, hw⟩⟩

/-- The plugin path of a file name is that name inside the plugin directory. -/
theorem osStat_plugin_path (w : World) (n : String)
    (hn : validName n = true) (path : Path)
    (hres : resolvePath w.cwd (GetPluginDir w) = some path) :
    resolvePath w.cwd (filepathJoin [GetPluginDir w, n]) = some (n :: path) ∧
    osStat w (filepathJoin [GetPluginDir w, n]) = FS.nodeAt w.fs (n :: path) := by
  obtain ⟨herr, hwalk, hres2⟩ := resolvePath_join_name w.cwd (GetPluginDir w) n path hres hn
  exact ⟨hres2, by simp only [osStat, herr, hwalk]⟩

/-! ### Directory listings -/

theorem FS.childNames_valid (fs : FS) (dir : Path) :
    ∀ c ∈ FS.childNames fs dir, validName c = true := by
  intro c hc
  unfold FS.childNames at hc
  rcases List.mem_filterMap.1 hc with ⟨e, -, he⟩
  cases hp : e.1 with
  | nil => simp [hp] at he
  | cons c0 parent =>
    simp only [hp] at he
    split_ifs at he with hcond
    simp only [Option.some.injEq] at he
    rw [← he]
    exact hcond.2

theorem FS.lookup_isSome_iff (fs : FS) (p : Path) :
    (FS.lookup fs p).isSome = true ↔ ∃ n, (p, n) ∈ fs := by
  induction fs with
  | nil => simp [FS.lookup]
  | cons e rest ih =>
    obtain ⟨q, n⟩ := e
    by_cases hq : q = p
    · subst hq
      simp [FS.lookup]
    · simp only [FS.lookup, hq, if_false, ih, List.mem_cons, Prod.mk.injEq]
      constructor
      · rintro ⟨m, hm⟩
        exact ⟨m, Or.inr hm⟩
      · rintro ⟨m, hm | hm⟩
        · exact absurd hm.1.symm hq
        · exact ⟨m, hm⟩

theorem FS.mem_childNames (fs : FS) (dir : Path) (c : String) :
    c ∈ FS.childNames fs dir ↔ validName c = true ∧ (FS.lookup fs (c :: dir)).isSome = true := by
  rw [FS.lookup_isSome_iff]
  unfold FS.childNames
  rw [List.mem_filterMap]
  constructor
  · rintro ⟨⟨q, n⟩, hmem, he⟩
    cases q with
    | nil => simp at he
    | cons c0 parent =>
      simp only at he
      split_ifs at he with hcond
      simp only [Option.some.injEq] at he
      subst he
      obtain ⟨hp, hv⟩ := hcond
      subst hp
      exact ⟨hv, n, hmem⟩
  · rintro ⟨hv, n, hmem⟩
    exact ⟨(c :: dir, n), hmem, by simp [hv]⟩

/-- The names of a listing as the model builds it. -/
theorem osReadDir_names (w : World) (p : String) (entries : List DirEntry)
    (h : osReadDir w p = .ok entries) :
    ∃ path, resolvePath w.cwd p = some path ∧
      entries.map DirEntry.Name = (FS.childNames w.fs path).dedup.insertionSort nameLe := by
  unfold osReadDir at h
  cases herr : pathError p with
  | some e => simp [herr] at h
  | none =>
    simp only [herr] at h
    cases hnode : FS.nodeAt w.fs (walkPath w.cwd p) with
    | error e => simp [hnode] at h
    | ok node =>
      cases node with
      | file c1 m1 t1 => simp [hnode] at h
      | dir t1 =>
        simp only [hnode, Result.ok.injEq] at h
        refine ⟨walkPath w.cwd p, (resolvePath_eq_some w.cwd p _).2 ⟨herr, rfl⟩, ?_⟩
        rw [← h, List.map_map]
        exact List.map_id _

/-- The listing of a path that resolves, in terms of the object found there. -/
theorem osReadDir_of_resolve (w : World) (p : String) (path : Path)
    (hres : resolvePath w.cwd p = some path) :
    osReadDir w p =
      match FS.nodeAt w.fs path with
      | .error e => .error e
      | .ok (.file _ _ _) => .error .ENOTDIR
      | .ok (.dir _) =>
        .ok (((FS.childNames w.fs path).dedup.insertionSort nameLe).map (fun c =>
          { Name := c
            IsDir := match FS.lookup w.fs (c :: path) with
              | some n => n.isDir
              | none => false })) := by
  obtain ⟨herr, hwalk⟩ := (resolvePath_eq_some w.cwd p path).1 hres
  simp only [osReadDir, herr, hwalk]

/-- A listing names every entry once. -/
theorem osReadDir_names_nodup (w : World) (p : String) (entries : List DirEntry)
    (h : osReadDir w p = .ok entries) : (entries.map DirEntry.Name).Nodup := by
  obtain ⟨path, -, hnames⟩ := osReadDir_names w p entries h
  rw [hnames]
  exact (List.perm_insertionSort nameLe _).nodup_iff.2 (List.nodup_dedup _)

/-- A listing holds file names only: none is empty, `.` or `..`, none
contains `/`. -/
theorem osReadDir_names_valid (w : World) (p : String) (entries : List DirEntry)
    (h : osReadDir w p = .ok entries) : ∀ e ∈ entries, validName e.Name = true := by
  obtain ⟨path, -, hnames⟩ := osReadDir_names w p entries h
  intro e he
  have hmem : e.Name ∈ entries.map DirEntry.Name := List.mem_map_of_mem _ he
  rw [hnames] at hmem
  have hmem2 := (List.perm_insertionSort nameLe _).subset hmem
  exact FS.childNames_valid w.fs path _ (List.mem_dedup.1 hmem2)

/-- The listing of a directory names exactly the file names that exist in
it, and tells for each whether it is a directory. -/
theorem osReadDir_mem (w : World) (p : String) (entries : List DirEntry) (path : Path)
    (h : osReadDir w p = .ok entries) (hres : resolvePath w.cwd p = some path)
    (c : String) (isDir : Bool) :
    (⟨c, isDir⟩ : DirEntry) ∈ entries ↔
      validName c = true ∧ ∃ node, FS.nodeAt w.fs (c :: path) = .ok node ∧ node.isDir = isDir := by
  rw [osReadDir_of_resolve w p path hres] at h
  cases hnode : FS.nodeAt w.fs path with
  | error e => simp [hnode] at h
  | ok node =>
    cases node with
    | file c1 m1 t1 => simp [hnode] at h
    | dir t1 =>
      simp only [hnode, Result.ok.injEq] at h
      rw [← h, List.mem_map]
      have hwalk : validName c = true → FS.nodeAt w.fs (c :: path) =
          match FS.lookup w.fs (c :: path) with
          | none => .error .ENOENT
          | some n => .ok n := by
        intro hv
        have hlen : ¬ nameMax < byteLength c := by
          have := ((validName_iff c).1 hv).2.2.2
          omega
        rw [FS.nodeAt_cons_dir w.fs c path t1 hnode]
        simp only [hlen, if_false]
      constructor
      · rintro ⟨c0, hc0, heq⟩
        have hc0c : c0 = c := by simpa using congrArg DirEntry.Name heq
        subst hc0c
        have hmem := List.mem_dedup.1 ((List.perm_insertionSort nameLe _).subset hc0)
        obtain ⟨hv, hsome⟩ := (FS.mem_childNames w.fs path c0).1 hmem
        refine ⟨hv, ?_⟩
        rw [hwalk hv]
        cases hl : FS.lookup w.fs (c0 :: path) with
        | none => simp [hl] at hsome
        | some n =>
          refine ⟨n, rfl, ?_⟩
          simpa [hl] using congrArg DirEntry.IsDir heq
      · rintro ⟨hv, node, hn, hd⟩
        rw [hwalk hv] at hn
        cases hl : FS.lookup w.fs (c :: path) with
        | none => simp [hl] at hn
        | some n =>
          simp only [hl, Result.ok.injEq] at hn
          subst hn
          refine ⟨c, ?_, by simp [hl, hd]⟩
          apply (List.perm_insertionSort nameLe _).symm.subset
          exact List.mem_dedup.2 ((FS.mem_childNames w.fs path c).2 ⟨hv, by simp [hl]⟩)

/-- A plugin directory that can be listed comes from a home directory. -/
theorem GetPluginDir_home (w : World) (entries : List DirEntry)
    (h : osReadDir w (GetPluginDir w) = .ok entries) : ∃ home, w.home = some home := by
  cases hh : w.home with
  | some home => exact ⟨home, rfl⟩
  | none =>
    have hd : GetPluginDir w = "" := by simp [GetPluginDir, hh]
    rw [hd] at h
    have he : pathError "" = some .ENOENT := by decide
    simp [osReadDir, he] at h

/-- Every name that `GetInstalledPlugins` returns is a file name for which
`IsPluginInstalled` holds. -/
theorem listed_is_installed (w : World) (l : List String) (n : String)
    (hl : GetInstalledPlugins w = .ok l) (hn : n ∈ l) :
    validName n = true ∧ IsPluginInstalled w n = true := by
  unfold GetInstalledPlugins at hl
  cases hrd : osReadDir w (GetPluginDir w) with
  | error e =>
    simp only [hrd] at hl
    split_ifs at hl
    simp only [Result.ok.injEq] at hl
    rw [← hl] at hn
    cases hn
  | ok entries =>
    simp only [hrd, Result.ok.injEq] at hl
    rw [← hl] at hn
    rcases List.mem_map.1 hn with ⟨e, he, hname⟩
    have hmem : e ∈ entries := (List.mem_filter.1 he).1
    have hvalid : validName n = true := hname ▸ osReadDir_names_valid w _ entries hrd e hmem
    obtain ⟨path, hres, -⟩ := osReadDir_names w _ entries hrd
    have hmem2 : (⟨n, e.IsDir⟩ : DirEntry) ∈ entries := by
      rw [← hname]
      exact hmem
    obtain ⟨-, node, hnode, -⟩ := (osReadDir_mem w _ entries path hrd hres n e.IsDir).1 hmem2
    have hstat := (osStat_plugin_path w n hvalid path hres).2
    refine ⟨hvalid, ?_⟩
    unfold IsPluginInstalled getPluginPath
    rw [hstat, hnode]

/-- For a file name and a plugin directory that can be listed,
`IsPluginInstalled` holds exactly when the listing has an entry of that name,
of whatever kind. -/
theorem IsPluginInstalled_iff_listed (w : World) (n : String) (entries : List DirEntry)
    (hn : validName n = true) (hrd : osReadDir w (GetPluginDir w) = .ok entries) :
    IsPluginInstalled w n = true ↔ ∃ e ∈ entries, e.Name = n := by
  obtain ⟨path, hres, -⟩ := osReadDir_names w _ entries hrd
  have hstat := (osStat_plugin_path w n hn path hres).2
  unfold IsPluginInstalled getPluginPath
  rw [hstat]
  constructor
  · intro h
    cases hnode : FS.nodeAt w.fs (n :: path) with
    | error e => simp [hnode] at h
    | ok node =>
      exact ⟨⟨n, node.isDir⟩,
        (osReadDir_mem w _ entries path hrd hres n node.isDir).2 ⟨hn, node, hnode, rfl⟩, rfl⟩
  · rintro ⟨⟨c, d⟩, he, hname⟩
    simp only at hname
    subst hname
    obtain ⟨-, node, hnode, -⟩ := (osReadDir_mem w _ entries path hrd hres c d).1 he
    rw [hnode]

/-! ### `DownloadPlugin` and the checksum (C1, C10, C2) -/

/-- `IsPluginInstalled` reads the file system, the working directory and the
home directory only. -/
theorem IsPluginInstalled_congr (w w2 : World) (n : String)
    (hfs : w2.fs = w.fs) (hcwd : w2.cwd = w.cwd) (hhome : w2.home = w.home) :
    IsPluginInstalled w2 n = IsPluginInstalled w n := by
  unfold IsPluginInstalled getPluginPath GetPluginDir osStat
  rw [hfs, hcwd, hhome]

/-- A failed checksum verification ends `DownloadPlugin` before the write. -/
theorem DownloadPlugin_of_verify_fails (L : Lib) (w : World) (d : Plugin) (b : Bytes) (e : Error)
    (hget : netLookup w.net d.URL = .response 200 (some b))
    (hver : verifyChecksum L d b = some e) :
    DownloadPlugin L w d = (some e, { w with requests := w.requests ++ [d.URL] }) := by
  simp [DownloadPlugin, httpGet, hget, hver]

/-- A failing `DownloadPlugin` only records its request. -/
theorem DownloadPlugin_error_world (L : Lib) (w : World) (d : Plugin) (e : Error)
    (h : (DownloadPlugin L w d).1 = some e) :
    (DownloadPlugin L w d).2 = { w with requests := w.requests ++ [d.URL] } := by
  unfold DownloadPlugin httpGet at h ⊢
  cases hget : netLookup w.net d.URL with
  | netErr => rfl
  | response status body =>
    simp only [hget] at h ⊢
    split_ifs
    · rfl
    · cases body with
      | none => rfl
      | some content =>
        simp only
        cases hver : verifyChecksum L d content with
        | some e2 => rfl
        | none =>
          simp only
          cases hwr : osWriteFile { w with requests := w.requests ++ [d.URL] }
              (filepathJoin [GetPluginDir { w with requests := w.requests ++ [d.URL] }, d.Name])
              content 0o755 with
          | error e3 => rfl
          | ok fs2 =>
            rename_i hstatus
            simp [hstatus, hver, hwr] at h

/-- C1: when a checksum is given and differs from `sha256:` followed by the
lower-case hexadecimal digest of the downloaded content, `DownloadPlugin`
returns the checksum-mismatch error and writes nothing: the file system is as
before the call, and the plugin is installed after the call only if it was
before. -/
theorem DownloadPlugin_mismatch_writes_nothing (L : Lib) (w : World) (d : Plugin) (b : Bytes)
    (hget : netLookup w.net d.URL = .response 200 (some b))
    (hgiven : d.Checksum ≠ "")
    (hdiff : sprintfChecksum (L.sum256 b) ≠ d.Checksum) :
    (DownloadPlugin L w d).1 =
      some (.checksumMismatch d.Checksum (sprintfChecksum (L.sum256 b))) ∧
    (DownloadPlugin L w d).2.fs = w.fs ∧
    (DownloadPlugin L w d).2 = { w with requests := w.requests ++ [d.URL] } ∧
    IsPluginInstalled (DownloadPlugin L w d).2 d.Name = IsPluginInstalled w d.Name ∧
    GetInstalledPlugins (DownloadPlugin L w d).2 = GetInstalledPlugins w := by
  have hver : verifyChecksum L d b =
      some (.checksumMismatch d.Checksum (sprintfChecksum (L.sum256 b))) := by
    simp [verifyChecksum, hgiven, hdiff]
  rw [DownloadPlugin_of_verify_fails L w d b _ hget hver]
  exact ⟨rfl, rfl, rfl, rfl, rfl⟩

/-- C1 on scenario B of the specification: `fmt` carries a checksum that the
served content does not hash to; the install fails and `fmt` stays absent. -/
theorem DownloadPlugin_mismatch_writes_nothing_witness :
    IsPluginInstalled demoWorldFresh "fmt" = false ∧
    (DownloadPlugin demoLib demoWorldFresh
      { demoFmt with Checksum := "sha256:00" }).1 =
      some (.checksumMismatch "sha256:00"
        "sha256:4e4e4e4e4e4e4e4e4e4e4e4e4e4e4e4e4e4e4e4e4e4e4e4e4e4e4e4e4e4e4e4e") ∧
    (DownloadPlugin demoLib demoWorldFresh { demoFmt with Checksum := "sha256:00" }).2.fs =
      demoWorldFresh.fs ∧
    IsPluginInstalled
      (DownloadPlugin demoLib demoWorldFresh { demoFmt with Checksum := "sha256:00" }).2 "fmt" =
      false := by
  have h := DownloadPlugin_mismatch_writes_nothing demoLib demoWorldFresh
    { demoFmt with Checksum := "sha256:00" } [35, 33, 10] (by decide) (by decide) (by decide)
  exact ⟨by decide, h.1, h.2.1, h.2.2.2.1.trans (by decide)⟩

theorem hexDigit_lower (n : Nat) (h : n < 16) : isLowerHex (hexDigit n) = true := by
  revert n
  decide

theorem length_flatMap_hexByte (bs : List Nat) : (bs.flatMap hexByte).length = 2 * bs.length := by
  induction bs with
  | nil => rfl
  | cons b rest ih => simp [List.flatMap_cons, hexByte, ih]; omega

theorem flatMap_hexByte_lower (bs : List Nat) (hlt : ∀ b ∈ bs, b < 256) :
    ∀ c ∈ bs.flatMap hexByte, isLowerHex c = true := by
  intro c hc
  rcases List.mem_flatMap.1 hc with ⟨b, hb, hcb⟩
  have hb256 := hlt b hb
  simp only [hexByte, List.mem_cons, List.mem_singleton, List.not_mem_nil, or_false] at hcb
  rcases hcb with rfl | rfl
  · exact hexDigit_lower _ (by omega)
  · exact hexDigit_lower _ (by omega)

/-- The string that `DownloadPlugin` compares with the checksum always has the
form `sha256:<64 lower-case hexadecimal digits>`. -/
theorem sprintfChecksum_wellFormed (h : Digest) : wellFormedChecksum (sprintfChecksum h) := by
  have hlen : (h.bytes.flatMap hexByte).length = 64 := by
    rw [length_flatMap_hexByte, h.size_eq]
  refine ⟨?_, ?_, ?_⟩
  · show ("sha256:".data ++ h.bytes.flatMap hexByte).length = 71
    rw [List.length_append, hlen]
    rfl
  · show ("sha256:".data ++ h.bytes.flatMap hexByte).take 7 = "sha256:".data
    rw [List.take_append_of_le_length (by decide)]
    rfl
  · show ∀ c ∈ ("sha256:".data ++ h.bytes.flatMap hexByte).drop 7, isLowerHex c = true
    rw [List.drop_append_of_le_length (by decide)]
    exact flatMap_hexByte_lower h.bytes h.byte_lt

/-- C10: a descriptor whose checksum is not empty and is not `sha256:`
followed by 64 lower-case hexadecimal digits cannot be installed: for every
downloaded content `DownloadPlugin` returns the checksum-mismatch error and
leaves the file system as it was. -/
theorem DownloadPlugin_malformed_checksum_fails (L : Lib) (w : World) (d : Plugin) (b : Bytes)
    (hget : netLookup w.net d.URL = .response 200 (some b))
    (hgiven : d.Checksum ≠ "")
    (hbad : ¬ wellFormedChecksum d.Checksum) :
    (DownloadPlugin L w d).1 =
      some (.checksumMismatch d.Checksum (sprintfChecksum (L.sum256 b))) ∧
    (DownloadPlugin L w d).2.fs = w.fs ∧
    IsPluginInstalled (DownloadPlugin L w d).2 d.Name = IsPluginInstalled w d.Name := by
  have hdiff : sprintfChecksum (L.sum256 b) ≠ d.Checksum := by
    intro heq
    exact hbad (heq ▸ sprintfChecksum_wellFormed (L.sum256 b))
  have hver : verifyChecksum L d b =
      some (.checksumMismatch d.Checksum (sprintfChecksum (L.sum256 b))) := by
    simp [verifyChecksum, hgiven, hdiff]
  rw [DownloadPlugin_of_verify_fails L w d b _ hget hver]
  exact ⟨rfl, rfl, rfl⟩

/-- C10 on a checksum written with upper-case hexadecimal digits: it names the
digest of the served content, and the install fails all the same. -/
theorem DownloadPlugin_malformed_checksum_fails_witness :
    (DownloadPlugin demoLib demoWorldFresh
      { demoFmt with
        Checksum := "sha256:4E4E4E4E4E4E4E4E4E4E4E4E4E4E4E4E4E4E4E4E4E4E4E4E4E4E4E4E4E4E4E4E" }).1 =
      some (.checksumMismatch
        "sha256:4E4E4E4E4E4E4E4E4E4E4E4E4E4E4E4E4E4E4E4E4E4E4E4E4E4E4E4E4E4E4E4E"
        "sha256:4e4e4e4e4e4e4e4e4e4e4e4e4e4e4e4e4e4e4e4e4e4e4e4e4e4e4e4e4e4e4e4e") ∧
    (DownloadPlugin demoLib demoWorldFresh
      { demoFmt with
        Checksum := "sha256:4E4E4E4E4E4E4E4E4E4E4E4E4E4E4E4E4E4E4E4E4E4E4E4E4E4E4E4E4E4E4E4E" }).2.fs =
      demoDirs :=
  have h := DownloadPlugin_malformed_checksum_fails demoLib demoWorldFresh
    { demoFmt with
      Checksum := "sha256:4E4E4E4E4E4E4E4E4E4E4E4E4E4E4E4E4E4E4E4E4E4E4E4E4E4E4E4E4E4E4E4E" }
    [35, 33, 10] (by decide) (by decide) (by decide)
  ⟨h.1, h.2.1⟩

/-- `DownloadPlugin` when the download succeeds, the checksum is absent or
matches, and the write succeeds. -/
theorem DownloadPlugin_of_write_ok (L : Lib) (w : World) (d : Plugin) (b : Bytes) (fs2 : FS)
    (hget : netLookup w.net d.URL = .response 200 (some b))
    (hsum : d.Checksum = "" ∨ d.Checksum = sprintfChecksum (L.sum256 b))
    (hwrite : osWriteFile w (filepathJoin [GetPluginDir w, d.Name]) b 0o755 = .ok fs2) :
    DownloadPlugin L w d = (none, { w with requests := w.requests ++ [d.URL], fs := fs2 }) := by
  have hver : verifyChecksum L d b = none := by
    rcases hsum with h | h
    · simp [verifyChecksum, h]
    · simp [verifyChecksum, h.symm]
  have hwrite2 : osWriteFile { w with requests := w.requests ++ [d.URL] }
      (filepathJoin [GetPluginDir { w with requests := w.requests ++ [d.URL] }, d.Name])
      b 0o755 = .ok fs2 := hwrite
  simp [DownloadPlugin, httpGet, hget, hver, hwrite2]

/-- C2 as amended: when the download succeeds, the checksum is empty or
matches, and the write succeeds, `DownloadPlugin` returns no error and
`<pluginDir>/<name>` is afterwards a regular file whose content is exactly the
downloaded content, so that `IsPluginInstalled` holds; the content of a
previous file is replaced.  The write asks for mode 0755: a file that did not
exist gets mode 0755 less the bits of the umask, a file that existed keeps
the mode it had. -/
theorem DownloadPlugin_installs_content (L : Lib) (w : World) (d : Plugin) (b : Bytes) (fs2 : FS)
    (hget : netLookup w.net d.URL = .response 200 (some b))
    (hsum : d.Checksum = "" ∨ d.Checksum = sprintfChecksum (L.sum256 b))
    (hwrite : osWriteFile w (filepathJoin [GetPluginDir w, d.Name]) b 0o755 = .ok fs2) :
    (DownloadPlugin L w d).1 = none ∧
    (DownloadPlugin L w d).2.fs = fs2 ∧
    osReadFile (DownloadPlugin L w d).2 (filepathJoin [GetPluginDir w, d.Name]) = .ok b ∧
    IsPluginInstalled (DownloadPlugin L w d).2 d.Name = true ∧
    ∃ m, osStat (DownloadPlugin L w d).2 (filepathJoin [GetPluginDir w, d.Name]) =
        .ok (.file b m w.now) ∧
      (osStat w (filepathJoin [GetPluginDir w, d.Name]) = .error .ENOENT →
        m = 0o755 - (0o755 &&& w.umask)) ∧
      (∀ c0 m0 t0, osStat w (filepathJoin [GetPluginDir w, d.Name]) = .ok (.file c0 m0 t0) →
        m = m0) := by
  rw [DownloadPlugin_of_write_ok L w d b fs2 hget hsum hwrite]
  obtain ⟨m, hstat, hnew, hold⟩ := osWriteFile_stat w _ b 0o755 fs2 hwrite
  have hstat2 : osStat { w with requests := w.requests ++ [d.URL], fs := fs2 }
      (filepathJoin [GetPluginDir w, d.Name]) = .ok (.file b m w.now) := hstat
  refine ⟨rfl, rfl, ?_, ?_, m, hstat2, hnew, hold⟩
  · simp only [osReadFile, hstat2]
  · show (match osStat { w with requests := w.requests ++ [d.URL], fs := fs2 }
        (filepathJoin [GetPluginDir w, d.Name]) with
      | .ok _ => true
      | .error _ => false) = true
    rw [hstat2]

/-- C2 as amended, on scenario A of the specification: `fmt` is absent, its
checksum matches the served content; the install succeeds, the file is
created with mode 0755 and `fmt` is installed. -/
theorem DownloadPlugin_installs_content_witness :
    IsPluginInstalled demoWorldFresh "fmt" = false ∧
    (DownloadPlugin demoLib demoWorldFresh demoFmt).1 = none ∧
    osStat (DownloadPlugin demoLib demoWorldFresh demoFmt).2 "/home/u/.tooldock/plugins/fmt" =
      .ok (.file [35, 33, 10] 0o755 (100 * Hour)) ∧
    IsPluginInstalled (DownloadPlugin demoLib demoWorldFresh demoFmt).2 "fmt" = true := by
  have h := DownloadPlugin_installs_content demoLib demoWorldFresh demoFmt [35, 33, 10]
    (FS.insert demoDirs ["fmt", "plugins", ".tooldock", "u", "home"]
      (.file [35, 33, 10] 0o755 (100 * Hour)))
    (by decide) (by decide) (by decide)
  obtain ⟨m, hstat, hnew, -⟩ := h.2.2.2.2
  have hm : m = 0o755 := (hnew (by decide)).trans (by decide)
  have hp : filepathJoin [GetPluginDir demoWorldFresh, demoFmt.Name] =
      "/home/u/.tooldock/plugins/fmt" := by decide
  rw [hp, hm] at hstat
  exact ⟨by decide, h.1, hstat, h.2.2.2.1⟩

/-- C2 fails as stated.  With a previous file `fmt` of mode 0644, a descriptor
without checksum, a good download and a successful write, `DownloadPlugin`
returns no error and the file has the new content but still mode 0644,
without execute permission.  With no previous file and a umask of 077 the
file is created with mode 0700. -/
theorem DownloadPlugin_keeps_old_mode :
    netLookup demoWorldNoExec.net demoFmtPlain.URL = .response 200 (some [35, 33, 10]) ∧
    demoFmtPlain.Checksum = "" ∧
    osStat demoWorldNoExec (filepathJoin [GetPluginDir demoWorldNoExec, demoFmtPlain.Name]) =
      .ok (.file [7, 7] 0o644 (50 * Hour)) ∧
    (∃ fs2, osWriteFile demoWorldNoExec
      (filepathJoin [GetPluginDir demoWorldNoExec, demoFmtPlain.Name]) [35, 33, 10] 0o755 =
        .ok fs2) ∧
    (DownloadPlugin demoLib demoWorldNoExec demoFmtPlain).1 = none ∧
    osStat (DownloadPlugin demoLib demoWorldNoExec demoFmtPlain).2
      (filepathJoin [GetPluginDir demoWorldNoExec, demoFmtPlain.Name]) =
      .ok (.file [35, 33, 10] 0o644 (100 * Hour)) ∧
    (¬ ∃ t, osStat (DownloadPlugin demoLib demoWorldNoExec demoFmtPlain).2
      (filepathJoin [GetPluginDir demoWorldNoExec, demoFmtPlain.Name]) =
      .ok (.file [35, 33, 10] 0o755 t)) ∧
    (DownloadPlugin demoLib { demoWorldFresh with umask := 0o077 } demoFmtPlain).1 = none ∧
    osStat (DownloadPlugin demoLib { demoWorldFresh with umask := 0o077 } demoFmtPlain).2
      (filepathJoin [GetPluginDir demoWorldFresh, demoFmtPlain.Name]) =
      .ok (.file [35, 33, 10] 0o700 (100 * Hour)) := by
  refine ⟨by decide, by decide, by decide, ⟨_, rfl⟩, by decide, by decide, ?_,
    by decide, by decide⟩
  rintro ⟨t, ht⟩
  have h : osStat (DownloadPlugin demoLib demoWorldNoExec demoFmtPlain).2
      (filepathJoin [GetPluginDir demoWorldNoExec, demoFmtPlain.Name]) =
      .ok (.file [35, 33, 10] 0o644 (100 * Hour)) := by decide
  rw [h] at ht
  simp at ht

/-! ### `Registry.FindPlugin` (C3) -/

theorem findIn_eq_some_iff (n : String) (ps : List Plugin) (p : Plugin) :
    findIn n ps = some p ↔
      ∃ before after, ps = before ++ p :: after ∧ p.Name = n ∧ ∀ q ∈ before, q.Name ≠ n := by
  induction ps with
  | nil => simp [findIn]
  | cons a rest ih =>
    unfold findIn
    by_cases ha : a.Name = n
    · simp only [ha, if_true, Option.some.injEq]
      constructor
      · rintro rfl
        exact ⟨[], rest, rfl, ha, by simp⟩
      · rintro ⟨before, after, hs, hp, hb⟩
        cases before with
        | nil => simp at hs; exact hs.1
        | cons b bs =>
          simp at hs
          exact absurd (hs.1 ▸ ha) (hb b (by simp))
    · simp only [ha, if_false, ih]
      constructor
      · rintro ⟨before, after, hs, hp, hb⟩
        refine ⟨a :: before, after, by simp [hs], hp, ?_⟩
        intro q hq
        rcases List.mem_cons.1 hq with rfl | hq
        · exact ha
        · exact hb q hq
      · rintro ⟨before, after, hs, hp, hb⟩
        cases before with
        | nil =>
          simp at hs
          exact absurd (hs.1 ▸ hp) ha
        | cons b bs =>
          simp at hs
          exact ⟨bs, after, hs.2, hp, fun q hq => hb q (by simp [hq])⟩

theorem findIn_eq_none_iff (n : String) (ps : List Plugin) :
    findIn n ps = none ↔ ∀ q ∈ ps, q.Name ≠ n := by
  induction ps with
  | nil => simp [findIn]
  | cons a rest ih =>
    unfold findIn
    by_cases ha : a.Name = n
    · simp [ha]
    · simp [ha, ih]

/-- C3: `FindPlugin` returns a descriptor exactly when some entry of the
catalog has the requested name (string equality); the descriptor returned is
the first entry of that name in catalog order, and nil is returned exactly
when no entry has that name. -/
theorem FindPlugin_first_exact_match (r : Registry) (n : String) :
    ((FindPlugin r n).isSome = true ↔ ∃ p ∈ r.Plugins, p.Name = n) ∧
    (∀ p, FindPlugin r n = some p ↔
      ∃ before after, r.Plugins = before ++ p :: after ∧ p.Name = n ∧
        ∀ q ∈ before, q.Name ≠ n) ∧
    (FindPlugin r n = none ↔ ∀ q ∈ r.Plugins, q.Name ≠ n) := by
  refine ⟨?_, fun p => findIn_eq_some_iff n r.Plugins p, findIn_eq_none_iff n r.Plugins⟩
  unfold FindPlugin
  constructor
  · intro h
    rcases Option.isSome_iff_exists.1 h with ⟨p, hp⟩
    rcases (findIn_eq_some_iff n r.Plugins p).1 hp with ⟨before, after, hs, hn, -⟩
    exact ⟨p, by simp [hs], hn⟩
  · rintro ⟨p, hp, hn⟩
    cases h : findIn n r.Plugins with
    | some x => rfl
    | none => exact absurd hn ((findIn_eq_none_iff n r.Plugins).1 h p hp)

/-! ### The search command (C4) -/

theorem startsWithChars_iff (s sub : List Char) :
    startsWithChars s sub = true ↔ sub <+: s := by
  induction s generalizing sub with
  | nil => cases sub <;> simp [startsWithChars]
  | cons a s ih =>
    cases sub with
    | nil => simp [startsWithChars]
    | cons b sub =>
      simp only [startsWithChars, Bool.and_eq_true, decide_eq_true_eq, ih, List.cons_prefix_cons]
      constructor
      · rintro ⟨h1, h2⟩
        exact ⟨h1.symm, h2⟩
      · rintro ⟨h1, h2⟩
        exact ⟨h1.symm, h2⟩

theorem containsChars_iff (s sub : List Char) :
    containsChars s sub = true ↔ sub <:+: s := by
  induction s with
  | nil => simp [containsChars, startsWithChars_iff]
  | cons a s ih =>
    simp [containsChars, startsWithChars_iff, ih, List.infix_cons_iff]

theorem matchesQuery_iff (L : Lib) (q : String) (p : Plugin) :
    matchesQuery L (stringsToLower L q) p = true ↔
      caseInsensitiveSubstring L q p.Name ∨ caseInsensitiveSubstring L q p.Description := by
  simp [matchesQuery, stringsContains, containsChars_iff, caseInsensitiveSubstring]

theorem foldl_searchStep (L : Lib) (query : String) (installed : List String)
    (ps : List Plugin) (found : Bool) (w : World) :
    ps.foldl (searchStep L query installed) (found, w) =
      (found || !(ps.filter (matchesQuery L query)).isEmpty,
        { w with
          stdout := w.stdout ++
            (ps.filter (matchesQuery L query)).map (fun p => pluginLine (statusOf installed p) p) }) := by
  induction ps generalizing found w with
  | nil => simp
  | cons a rest ih =>
    simp only [List.foldl_cons, searchStep]
    by_cases h : matchesQuery L query a = true
    · simp [h, ih, printOut]
    · simp [h, ih]

/-- C4: when the search command has its catalog `C` and the list of installed
plugins, it prints, after the header, one line for each entry of `C` for which
the query is a case-insensitive substring of the name or of the description,
in catalog order and nothing else; the "no plugins found" message is printed
exactly when there is no such entry. -/
theorem pluginSearch_reports_matches (L : Lib) (w w1 : World) (C : Registry)
    (installed : List String) (q : String)
    (hreg : GetCachedRegistry L w = (.ok C, w1))
    (hinst : GetInstalledPlugins w1 = .ok installed) :
    pluginSearch L w q =
      (none,
        { w1 with
          stdout := w1.stdout ++
            ["Search results for \x27" ++ stringsToLower L q ++ "\x27:\n\n"] ++
            (searchHits L q C.Plugins).map (fun p => pluginLine (statusOf installed p) p) ++
            (if searchHits L q C.Plugins = [] then ["No plugins found matching your query.\n"]
              else []) ++
            ["\n"] }) ∧
    (∀ p, p ∈ searchHits L q C.Plugins ↔
      p ∈ C.Plugins ∧
        (caseInsensitiveSubstring L q p.Name ∨ caseInsensitiveSubstring L q p.Description)) ∧
    (searchHits L q C.Plugins).Sublist C.Plugins := by
  have hfilter : C.Plugins.filter (matchesQuery L (stringsToLower L q)) =
      searchHits L q C.Plugins := by
    unfold searchHits
    apply List.filter_congr
    intro p _
    rw [Bool.eq_iff_iff, matchesQuery_iff]
    simp
  refine ⟨?_, ?_, ?_⟩
  · unfold pluginSearch
    simp only [hreg, hinst, foldl_searchStep, hfilter]
    by_cases hempty : searchHits L q C.Plugins = []
    · simp [hempty, printOut]
    · have : (searchHits L q C.Plugins).isEmpty = false := by
        cases h : searchHits L q C.Plugins with
        | nil => exact absurd h hempty
        | cons a t => rfl
      simp [hempty, this, printOut]
  · intro p
    simp [searchHits, List.mem_filter]
  · exact List.filter_sublist _

/-- C4 on scenario D of the specification: the query `FMT` selects `fmt` (by
name) and `lint` (by description), in catalog order. -/
theorem pluginSearch_reports_matches_witness :
    GetCachedRegistry demoLib demoWorld = (.ok demoCatalog, demoWorld) ∧
    GetInstalledPlugins demoWorld = .ok ["fmt"] ∧
    (pluginSearch demoLib demoWorld "FMT").2.stdout =
      [ "Search results for \x27fmt\x27:\n\n",
        "✓ fmt             Formats code (v1.2.0)\n",
        "  lint            runs fmt checks (v0.3.1)\n",
        "\n" ] := by
  refine ⟨by decide, by decide, ?_⟩
  rw [(pluginSearch_reports_matches demoLib demoWorld demoWorld demoCatalog ["fmt"] "FMT"
    (by decide) (by decide)).1]
  decide

/-! ### `GetCachedRegistry` (C5) -/

/-- Saturation of `time.Since` does not change the comparison with 24 hours. -/
theorem timeSince_lt_day (w : World) (t : Int) :
    timeSince w t < 24 * Hour ↔ w.now - t < 24 * Hour := by
  have hmax : maxDuration = 9223372036854775807 := by norm_num [maxDuration]
  have hmin : minDuration = -9223372036854775808 := by norm_num [minDuration]
  have hhour : Hour = 3600000000000 := by norm_num [Hour]
  unfold timeSince
  rw [hmax, hmin, hhour]
  split_ifs <;> omega

/-- `cacheRegistry` issues no request. -/
theorem cacheRegistry_requests (L : Lib) (w : World) (r : Registry) :
    (cacheRegistry L w r).2.requests = w.requests := by
  unfold cacheRegistry
  cases L.jsonMarshalIndent r with
  | none => rfl
  | some data =>
    simp only
    cases osWriteFile w (filepathJoin [GetCacheDir w, "registry.json"]) data 0o644 <;> rfl

/-- Every call of `FetchRegistry` issues one request to the registry URL. -/
theorem FetchRegistry_requests (L : Lib) (w : World) :
    (FetchRegistry L w).2.requests = w.requests ++ [GetRegistryURL w] := by
  unfold FetchRegistry httpGet
  cases netLookup w.net (GetRegistryURL w) with
  | netErr => rfl
  | response status body =>
    simp only
    split_ifs
    · rfl
    · cases body.bind L.jsonDecode with
      | none => rfl
      | some reg => simp only [cacheRegistry_requests]

/-- `cacheRegistry` changes the file system only. -/
theorem cacheRegistry_frame (L : Lib) (w : World) (r : Registry) :
    (cacheRegistry L w r).2.cwd = w.cwd ∧ (cacheRegistry L w r).2.home = w.home := by
  unfold cacheRegistry
  cases L.jsonMarshalIndent r with
  | none => exact ⟨rfl, rfl⟩
  | some data =>
    simp only
    cases osWriteFile w (filepathJoin [GetCacheDir w, "registry.json"]) data 0o644 <;>
      exact ⟨rfl, rfl⟩

/-- `FetchRegistry` keeps the working directory and the home directory. -/
theorem FetchRegistry_frame (L : Lib) (w : World) :
    (FetchRegistry L w).2.cwd = w.cwd ∧ (FetchRegistry L w).2.home = w.home := by
  unfold FetchRegistry httpGet
  cases netLookup w.net (GetRegistryURL w) with
  | netErr => exact ⟨rfl, rfl⟩
  | response status body =>
    simp only
    split_ifs
    · exact ⟨rfl, rfl⟩
    · cases body.bind L.jsonDecode with
      | none => exact ⟨rfl, rfl⟩
      | some reg => exact cacheRegistry_frame L _ reg

/-- C5: if the cache file exists, is less than 24 hours old, can be read and
parses, `GetCachedRegistry` returns the parsed catalog and leaves the world as
it is (no request, no write); in every other case (no cache file, an age of 24
hours or more, a failed read, a failed parse) its result is the result of
`FetchRegistry`, which always issues a request.  In particular a cache file 23
hours old is used and one 25 hours old leads to a fetch. -/
theorem GetCachedRegistry_fresh_or_fetch (L : Lib) (w : World) :
    (∀ info data reg,
      osStat w (filepathJoin [GetCacheDir w, "registry.json"]) = .ok info →
      w.now - info.modTime < 24 * Hour →
      osReadFile w (filepathJoin [GetCacheDir w, "registry.json"]) = .ok data →
      L.jsonUnmarshal data = some reg →
      GetCachedRegistry L w = (.ok reg, w)) ∧
    (((∃ e, osStat w (filepathJoin [GetCacheDir w, "registry.json"]) = .error e) ∨
      (∃ info, osStat w (filepathJoin [GetCacheDir w, "registry.json"]) = .ok info ∧
        24 * Hour ≤ w.now - info.modTime) ∨
      (∃ e, osReadFile w (filepathJoin [GetCacheDir w, "registry.json"]) = .error e) ∨
      (∃ data, osReadFile w (filepathJoin [GetCacheDir w, "registry.json"]) = .ok data ∧
        L.jsonUnmarshal data = none)) →
      GetCachedRegistry L w = FetchRegistry L w) ∧
    (FetchRegistry L w).2.requests = w.requests ++ [GetRegistryURL w] ∧
    (∀ info data reg,
      osStat w (filepathJoin [GetCacheDir w, "registry.json"]) = .ok info →
      w.now - info.modTime = 23 * Hour →
      osReadFile w (filepathJoin [GetCacheDir w, "registry.json"]) = .ok data →
      L.jsonUnmarshal data = some reg →
      GetCachedRegistry L w = (.ok reg, w)) ∧
    (∀ info,
      osStat w (filepathJoin [GetCacheDir w, "registry.json"]) = .ok info →
      w.now - info.modTime = 25 * Hour →
      GetCachedRegistry L w = FetchRegistry L w) := by
  have hhour : Hour = 3600000000000 := by norm_num [Hour]
  have fresh : ∀ info data reg,
      osStat w (filepathJoin [GetCacheDir w, "registry.json"]) = .ok info →
      w.now - info.modTime < 24 * Hour →
      osReadFile w (filepathJoin [GetCacheDir w, "registry.json"]) = .ok data →
      L.jsonUnmarshal data = some reg →
      GetCachedRegistry L w = (.ok reg, w) := by
    intro info data reg hstat hage hread hparse
    simp [GetCachedRegistry, hstat, (timeSince_lt_day w info.modTime).2 hage, hread, hparse]
  have stale : ∀ info,
      osStat w (filepathJoin [GetCacheDir w, "registry.json"]) = .ok info →
      24 * Hour ≤ w.now - info.modTime →
      GetCachedRegistry L w = FetchRegistry L w := by
    intro info hstat hage
    have hnot : ¬ timeSince w info.modTime < 24 * Hour := by
      rw [timeSince_lt_day]
      omega
    simp [GetCachedRegistry, hstat, hnot]
  refine ⟨fresh, ?_, FetchRegistry_requests L w, ?_, ?_⟩
  · rintro (⟨e, hstat⟩ | ⟨info, hstat, hage⟩ | ⟨e, hread⟩ | ⟨data, hread, hparse⟩)
    · simp [GetCachedRegistry, hstat]
    · exact stale info hstat hage
    · unfold GetCachedRegistry
      simp only [hread]
      cases osStat w (filepathJoin [GetCacheDir w, "registry.json"]) with
      | error e0 => rfl
      | ok info => simp only; split_ifs <;> rfl
    · unfold GetCachedRegistry
      simp only [hread, hparse]
      cases osStat w (filepathJoin [GetCacheDir w, "registry.json"]) with
      | error e0 => rfl
      | ok info => simp only; split_ifs <;> rfl
  · intro info data reg hstat hage hread hparse
    exact fresh info data reg hstat (by rw [hage, hhour]; norm_num) hread hparse
  · intro info hstat hage
    exact stale info hstat (by rw [hage, hhour]; norm_num)

/-- C5 on two worlds: a cache file 23 hours old is returned with the world
untouched; with a cache file 25 hours old the registry is fetched, which
issues a request and rewrites the cache file. -/
theorem GetCachedRegistry_fresh_or_fetch_witness :
    GetCachedRegistry demoLib demoWorld = (.ok demoCatalog, demoWorld) ∧
    GetCachedRegistry demoLib demoWorldStale = FetchRegistry demoLib demoWorldStale ∧
    (GetCachedRegistry demoLib demoWorldStale).2.requests = [defaultRegistryURL] ∧
    osStat (GetCachedRegistry demoLib demoWorldStale).2 "/home/u/.tooldock/cache/registry.json" =
      .ok (.file [1] 0o644 (100 * Hour)) := by
  have hfresh := (GetCachedRegistry_fresh_or_fetch demoLib demoWorld).2.2.2.1
    (.file [1] 0o644 (77 * Hour)) [1] demoCatalog (by decide) (by decide) (by decide) (by decide)
  have hstale := (GetCachedRegistry_fresh_or_fetch demoLib demoWorldStale).2.2.2.2
    (.file [1] 0o644 (75 * Hour)) (by decide) (by decide)
  exact ⟨hfresh, hstale, by decide, by decide⟩

/-! ### `RemovePlugin` (C6) -/

/-- A successful `RemovePlugin` changes the file system as `os.Remove` does
and nothing else. -/
theorem RemovePlugin_ok_world (w w2 : World) (n : String)
    (h : RemovePlugin w n = (none, w2)) :
    ∃ fs2, osRemove w (filepathJoin [GetPluginDir w, n]) = .ok fs2 ∧
      w2 = { w with fs := fs2 } := by
  unfold RemovePlugin at h
  cases hrm : osRemove w (filepathJoin [GetPluginDir w, n]) with
  | error e =>
    simp only [hrm] at h
    split_ifs at h <;> simp at h
  | ok fs2 =>
    simp only [hrm, Prod.mk.injEq, true_and] at h
    exact ⟨fs2, rfl, h.symm⟩

/-- A successful `RemovePlugin` leaves nothing at the plugin path. -/
theorem RemovePlugin_ok_absent (w w2 : World) (n : String)
    (h : RemovePlugin w n = (none, w2)) :
    w2.cwd = w.cwd ∧ w2.home = w.home ∧ IsPluginInstalled w2 n = false ∧
      ∃ fs2, osRemove w (filepathJoin [GetPluginDir w, n]) = .ok fs2 ∧ w2.fs = fs2 := by
  obtain ⟨fs2, hrm, hw2⟩ := RemovePlugin_ok_world w w2 n h
  subst hw2
  obtain ⟨path, hres, -, -, hgone, -⟩ := osRemove_ok w _ fs2 hrm
  refine ⟨rfl, rfl, ?_, fs2, hrm, rfl⟩
  have hstat : osStat { w with fs := fs2 } (filepathJoin [GetPluginDir w, n]) =
      .error .ENOENT := by
    rw [osStat_of_resolve { w with fs := fs2 } _ path hres]
    exact hgone
  show (match osStat { w with fs := fs2 } (filepathJoin [GetPluginDir w, n]) with
    | .ok _ => true
    | .error _ => false) = false
  rw [hstat]

/-- C7: when the plugin is installed and found in the freshly fetched catalog,
the removal of the old artifact succeeds and `DownloadPlugin` then fails, the
update command returns the update-failed error and the plugin, installed
before, is left uninstalled: the file system is the one the removal produced,
nothing is found at the plugin path, and the plugin is not among the installed
plugins any more. -/
theorem pluginUpdate_failure_leaves_absent (L : Lib) (w w1 w2 w4 : World) (n : String)
    (installed : List String) (reg : Registry) (p : Plugin) (e : Error)
    (hinst : GetInstalledPlugins w = .ok installed)
    (hmem : n ∈ installed)
    (hfetch : FetchRegistry L w = (.ok reg, w1))
    (hfind : FindPlugin reg n = some p)
    (hremove : RemovePlugin w1 n = (none, w2))
    (hdownload : DownloadPlugin L (printOut w2 (updatingLine p)) p = (some e, w4)) :
    pluginUpdate L w n = (some (.cmdUpdate e), w4) ∧
    IsPluginInstalled w n = true ∧
    w4.fs = w2.fs ∧
    (∃ fs2, osRemove w1 (filepathJoin [GetPluginDir w1, n]) = .ok fs2 ∧ w4.fs = fs2) ∧
    IsPluginInstalled w4 n = false ∧
    (∀ l, GetInstalledPlugins w4 = .ok l → n ∉ l) := by
  have hw4 : w4 = { printOut w2 (updatingLine p) with
      requests := (printOut w2 (updatingLine p)).requests ++ [p.URL] } := by
    have := DownloadPlugin_error_world L (printOut w2 (updatingLine p)) p e (by rw [hdownload])
    rw [hdownload] at this
    exact this
  obtain ⟨hcwd, hhome, habsent, fs2, hrm, hfs2⟩ := RemovePlugin_ok_absent w1 w2 n hremove
  have hfs : w4.fs = w2.fs := by rw [hw4]; rfl
  have hgone : IsPluginInstalled w4 n = false := by
    rw [IsPluginInstalled_congr w2 w4 n hfs (by rw [hw4]; rfl) (by rw [hw4]; rfl)]
    exact habsent
  refine ⟨?_, (listed_is_installed w installed n hinst hmem).2, hfs,
    ⟨fs2, hrm, hfs.trans hfs2⟩, hgone, ?_⟩
  · simp [pluginUpdate, hinst, hmem, hfetch, hfind, hremove, hdownload]
  · intro l hl hn
    have := (listed_is_installed w4 l n hl hn).2
    rw [hgone] at this
    cases this

/-- C7 on a world where `fmt` is installed and the fresh catalog names a
checksum that the served content does not hash to: the update fails and `fmt`
is gone. -/
theorem pluginUpdate_failure_leaves_absent_witness :
    IsPluginInstalled demoWorldBadSum "fmt" = true ∧
    GetInstalledPlugins demoWorldBadSum = .ok ["fmt"] ∧
    (pluginUpdate demoLibBadSum demoWorldBadSum "fmt").1 =
      some (.cmdUpdate (.checksumMismatch
        "sha256:0000000000000000000000000000000000000000000000000000000000000000"
        "sha256:4e4e4e4e4e4e4e4e4e4e4e4e4e4e4e4e4e4e4e4e4e4e4e4e4e4e4e4e4e4e4e4e")) ∧
    IsPluginInstalled (pluginUpdate demoLibBadSum demoWorldBadSum "fmt").2 "fmt" = false ∧
    GetInstalledPlugins (pluginUpdate demoLibBadSum demoWorldBadSum "fmt").2 = .ok [] := by
  have h := pluginUpdate_failure_leaves_absent demoLibBadSum demoWorldBadSum
    (FetchRegistry demoLibBadSum demoWorldBadSum).2
    (RemovePlugin (FetchRegistry demoLibBadSum demoWorldBadSum).2 "fmt").2
    (DownloadPlugin demoLibBadSum
      (printOut (RemovePlugin (FetchRegistry demoLibBadSum demoWorldBadSum).2 "fmt").2
        (updatingLine demoFmtZero)) demoFmtZero).2
    "fmt" ["fmt"] { Version := "2", Plugins := [demoFmtZero] } demoFmtZero
    (.checksumMismatch
      "sha256:0000000000000000000000000000000000000000000000000000000000000000"
      "sha256:4e4e4e4e4e4e4e4e4e4e4e4e4e4e4e4e4e4e4e4e4e4e4e4e4e4e4e4e4e4e4e4e")
    (by decide) (by decide) (by decide) (by decide) (by decide) (by decide)
  refine ⟨h.2.1, by decide, ?_, ?_, ?_⟩
  · rw [h.1]
  · rw [h.1]
    exact h.2.2.2.2.1
  · rw [h.1]
    decide

/-! ### `IsPluginInstalled` (C8) -/

/-- C8: `IsPluginInstalled` is true exactly when `os.Stat` of the plugin path
succeeds, whatever is found there; for a file name that is when the plugin
directory has an entry of that name, a directory included.  It is true for
the sub-directory `bundle` of the plugin directory, which
`GetInstalledPlugins` leaves out, and for the empty name, whose path is the
plugin directory itself. -/
theorem IsPluginInstalled_accepts_directories :
    (∀ w n, IsPluginInstalled w n = true ↔ ∃ node, osStat w (getPluginPath w n) = .ok node) ∧
    (∀ w n entries, validName n = true → osReadDir w (GetPluginDir w) = .ok entries →
      (IsPluginInstalled w n = true ↔ ∃ e ∈ entries, e.Name = n)) ∧
    osReadDir demoWorld (GetPluginDir demoWorld) =
      .ok [⟨".hidden", false⟩, ⟨"bundle", true⟩, ⟨"fmt", false⟩] ∧
    osStat demoWorld (getPluginPath demoWorld "bundle") = .ok (.dir (50 * Hour)) ∧
    IsPluginInstalled demoWorld "bundle" = true ∧
    GetInstalledPlugins demoWorld = .ok ["fmt"] ∧
    getPluginPath demoWorld "" = GetPluginDir demoWorld ∧
    osStat demoWorld (getPluginPath demoWorld "") = .ok (.dir 0) ∧
    IsPluginInstalled demoWorld "" = true := by
  refine ⟨?_, fun w n entries hn hrd => IsPluginInstalled_iff_listed w n entries hn hrd,
    by decide, by decide, by decide, by decide, by decide, by decide, by decide⟩
  intro w n
  unfold IsPluginInstalled
  cases osStat w (getPluginPath w n) with
  | ok node => simp
  | error e => simp

/-! ### `GetInstalledPlugins` (C9) -/

theorem listed_iff (e : DirEntry) :
    listed e = true ↔ e.IsDir = false ∧ ¬ beginsWithDot e.Name := by
  unfold listed beginsWithDot
  cases hd : e.Name.data with
  | nil => simp [List.prefix_nil]
  | cons a rest =>
    simp only [Bool.and_eq_true, Bool.not_eq_true', decide_eq_true_eq, List.head?_cons,
      ne_eq, Option.some.injEq, List.cons_prefix_cons, List.nil_prefix, and_true]
    constructor
    · rintro ⟨h1, h2⟩
      exact ⟨h1, fun h => h2 h.symm⟩
    · rintro ⟨h1, h2⟩
      exact ⟨h1, fun h => h2 h.symm⟩

/-- C9: when the plugin directory can be listed, `GetInstalledPlugins`
returns without error the names of the entries that are not directories and
do not begin with `.`, in listing order and each once (no name of the listing
is empty, so that indexing its first byte is safe); these are the file names
not beginning with `.` under which the plugin directory holds a regular file.
When the directory does not exist it returns the empty list without error;
any other failure of the listing is returned as the error. -/
theorem GetInstalledPlugins_lists_visible_files (w : World) :
    (∀ entries, osReadDir w (GetPluginDir w) = .ok entries →
      GetInstalledPlugins w =
        .ok ((entries.filter
          (fun e => decide (e.IsDir = false ∧ ¬ beginsWithDot e.Name))).map DirEntry.Name) ∧
      ((entries.filter
          (fun e => decide (e.IsDir = false ∧ ¬ beginsWithDot e.Name))).map DirEntry.Name).Nodup ∧
      (entries.map DirEntry.Name).Nodup ∧
      (∀ e ∈ entries, e.Name ≠ "") ∧
      ∀ path, resolvePath w.cwd (GetPluginDir w) = some path →
        ∀ n, n ∈ (entries.filter
            (fun e => decide (e.IsDir = false ∧ ¬ beginsWithDot e.Name))).map DirEntry.Name ↔
          validName n = true ∧ ¬ beginsWithDot n ∧
            ∃ content perm mtime, FS.nodeAt w.fs (n :: path) = .ok (.file content perm mtime)) ∧
    (osReadDir w (GetPluginDir w) = .error .ENOENT → GetInstalledPlugins w = .ok []) ∧
    (∀ e, osReadDir w (GetPluginDir w) = .error e → e ≠ .ENOENT →
      GetInstalledPlugins w = .error (.os e)) := by
  refine ⟨?_, ?_, ?_⟩
  · intro entries h
    have hfilter : entries.filter listed =
        entries.filter (fun e => decide (e.IsDir = false ∧ ¬ beginsWithDot e.Name)) := by
      apply List.filter_congr
      intro e _
      rw [Bool.eq_iff_iff, listed_iff]
      simp
    have hnodup := osReadDir_names_nodup w _ entries h
    refine ⟨by simp [GetInstalledPlugins, h, hfilter], ?_, hnodup, ?_, ?_⟩
    · exact hnodup.sublist ((List.filter_sublist _).map _)
    · intro e he hempty
      have hv := osReadDir_names_valid w _ entries h e he
      rw [hempty] at hv
      simp [validName] at hv
    · intro path hres n
      rw [List.mem_map]
      constructor
      · rintro ⟨⟨c, d⟩, he, hname⟩
        simp only at hname
        subst hname
        obtain ⟨hmem, hcond⟩ := List.mem_filter.1 he
        simp only [decide_eq_true_eq] at hcond
        obtain ⟨hv, node, hnode, hd⟩ := (osReadDir_mem w _ entries path h hres c d).1 hmem
        refine ⟨hv, hcond.2, ?_⟩
        cases node with
        | file c1 m1 t1 => exact ⟨c1, m1, t1, hnode⟩
        | dir t1 =>
          have : d = false := hcond.1
          rw [this] at hd
          simp [Node.isDir] at hd
      · rintro ⟨hv, hdot, c1, m1, t1, hnode⟩
        refine ⟨⟨n, false⟩, ?_, rfl⟩
        apply List.mem_filter.2
        refine ⟨(osReadDir_mem w _ entries path h hres n false).2 ⟨hv, _, hnode, rfl⟩, ?_⟩
        simp only [decide_eq_true_eq]
        exact ⟨trivial, hdot⟩
  · intro h
    simp [GetInstalledPlugins, h]
  · intro e h hne
    simp [GetInstalledPlugins, h, hne]

/-- C9 on three worlds: a plugin directory with a file, a hidden file and a
sub-directory; no home directory, hence no plugin directory; a plugin
directory that is a regular file. -/
theorem GetInstalledPlugins_lists_visible_files_witness :
    osReadDir demoWorld (GetPluginDir demoWorld) =
      .ok [⟨".hidden", false⟩, ⟨"bundle", true⟩, ⟨"fmt", false⟩] ∧
    GetInstalledPlugins demoWorld = .ok ["fmt"] ∧
    GetInstalledPlugins { demoWorld with fs := [] } = .ok [] ∧
    GetInstalledPlugins { demoWorld with
      fs := [ (["home"], .dir 0), (["u", "home"], .dir 0),
              ([".tooldock", "u", "home"], .dir 0),
              (["plugins", ".tooldock", "u", "home"], .file [] 0o644 0) ] } =
      .error (.os .ENOTDIR) := by
  have h1 := ((GetInstalledPlugins_lists_visible_files demoWorld).1
    [⟨".hidden", false⟩, ⟨"bundle", true⟩, ⟨"fmt", false⟩] (by decide)).1
  have h2 := (GetInstalledPlugins_lists_visible_files { demoWorld with fs := [] }).2.1
    (by decide)
  have h3 := (GetInstalledPlugins_lists_visible_files { demoWorld with
      fs := [ (["home"], .dir 0), (["u", "home"], .dir 0),
              ([".tooldock", "u", "home"], .dir 0),
              (["plugins", ".tooldock", "u", "home"], .file [] 0o644 0) ] }).2.2
    .ENOTDIR (by decide) (by decide)
  exact ⟨by decide, h1.trans (by decide), h2, h3⟩

end Tooldock
